import Mathlib

/-!
Verification of the resilience / admission-control core of the mlops-platform
repository: the generic circuit breaker (`src/api/utils/circuit_breaker.py`),
the degrading cache client (`src/api/cache/enhanced_redis_cache.py`) and the
distributed token-bucket rate limiter (`src/api/middleware/rate_limiter.py`).

Each Python component is shallowly embedded as executable Lean definitions:
mutable objects become explicit state records threaded through the operations,
`time.time()` becomes an explicit `now : Int` argument, the outcome of the
wrapped operation / the Redis backend becomes an explicit parameter, and
exceptions become explicit result constructors.  Timestamps are integers
(seconds); the token-bucket arithmetic, which Python performs on floats, is
carried out on `ℚ` — every concrete scenario proved below involves only small
rationals on which Python double arithmetic is exact and agrees with `ℚ`.
-/

namespace MLOpsPlatform

/-! ## Circuit breaker (`src/api/utils/circuit_breaker.py`)

`CircuitBreaker` from the source keeps `state`, `failure_count`,
`last_failure_time` plus a metrics dictionary.  `call(func, ...)` is embedded
as a function of the current time and of the outcome the wrapped operation
would produce when invoked. -/

/-- `CircuitState` enumeration of the source (`CLOSED`, `OPEN`, `HALF_OPEN`).
`OPEN` is rendered `opened` because `open` is a Lean keyword. -/
inductive CircuitState where
  | closed
  | opened
  | halfOpen
deriving DecidableEq, Repr

/-- The mutable state of one `CircuitBreaker` instance, together with its
configuration and the metrics counters the source keeps in `self.metrics`. -/
structure Breaker where
  failure_threshold : Nat
  recovery_timeout : Int
  state : CircuitState
  failure_count : Nat
  last_failure_time : Int
  success_metric : Nat
  failure_metric : Nat
  rejected_metric : Nat
deriving DecidableEq, Repr

/-- A fresh breaker, as built by `CircuitBreaker.__init__`. -/
def Breaker.init (threshold : Nat) (timeout : Int) : Breaker :=
  { failure_threshold := threshold
    recovery_timeout := timeout
    state := .closed
    failure_count := 0
    last_failure_time := 0
    success_metric := 0
    failure_metric := 0
    rejected_metric := 0 }

/-- What the wrapped operation does when it is actually invoked: it returns
normally, raises an exception contained in `exception_whitelist`, or raises a
non-whitelisted exception. -/
inductive OpOutcome where
  | success
  | failWhitelisted
  | failOther
deriving DecidableEq, Repr

/-- What `CircuitBreaker.call` does as seen by the caller: return the
operation's result, re-raise the operation's (whitelisted or other) exception,
or raise `CircuitBreakerOpenException` without invoking the operation. -/
inductive CallResult where
  | returned
  | raisedWhitelisted
  | raisedOther
  | rejectedOpen
deriving DecidableEq, Repr

/-- `CircuitBreaker._transition_to_open`. -/
def Breaker.transition_to_open (b : Breaker) : Breaker :=
  { b with state := .opened }

/-- `CircuitBreaker._transition_to_half_open`. -/
def Breaker.transition_to_half_open (b : Breaker) : Breaker :=
  { b with state := .halfOpen }

/-- `CircuitBreaker._transition_to_closed` (also resets `failure_count`). -/
def Breaker.transition_to_closed (b : Breaker) : Breaker :=
  { b with state := .closed, failure_count := 0 }

/-- `CircuitBreaker._on_success`: bump the success metric; transition to
CLOSED only when currently HALF_OPEN. -/
def Breaker.on_success (b : Breaker) : Breaker :=
  let b := { b with success_metric := b.success_metric + 1 }
  if b.state = .halfOpen then b.transition_to_closed else b

/-- `CircuitBreaker._on_failure`: record the failure time, increment
`failure_count`, and open the circuit when HALF_OPEN or when the new count
reaches `failure_threshold`. -/
def Breaker.on_failure (b : Breaker) (now : Int) : Breaker :=
  let b := { b with
    last_failure_time := now
    failure_count := b.failure_count + 1
    failure_metric := b.failure_metric + 1 }
  if b.state = .halfOpen ∨ b.failure_threshold ≤ b.failure_count then
    b.transition_to_open
  else b

/-- `CircuitBreaker._should_attempt_recovery`. -/
def Breaker.should_attempt_recovery (b : Breaker) (now : Int) : Bool :=
  b.recovery_timeout ≤ now - b.last_failure_time

/-- `CircuitBreaker.reset`. -/
def Breaker.reset (b : Breaker) : Breaker :=
  { b with state := .closed, failure_count := 0 }

/-- One `call` step: the result seen by the caller, the breaker afterwards,
and how many times the wrapped operation was invoked during the call. -/
structure CallStep where
  result : CallResult
  breaker : Breaker
  invocations : Nat
deriving DecidableEq, Repr

/-- The `try`/`except` body of `CircuitBreaker.call`: the operation is
invoked; whitelisted exceptions are re-raised with no bookkeeping at all,
other exceptions run `_on_failure` and are re-raised. -/
def Breaker.invoke (b : Breaker) (now : Int) (out : OpOutcome) : CallStep :=
  match out with
  | .success => ⟨.returned, b.on_success, 1⟩
  | .failWhitelisted => ⟨.raisedWhitelisted, b, 1⟩
  | .failOther => ⟨.raisedOther, b.on_failure now, 1⟩

/-- `CircuitBreaker.call`: while OPEN, either reject immediately (bumping the
rejected metric) or, when `recovery_timeout` has elapsed, move to HALF_OPEN
and proceed to invoke the operation. -/
def Breaker.call (b : Breaker) (now : Int) (out : OpOutcome) : CallStep :=
  if b.state = .opened then
    if b.should_attempt_recovery now then
      b.transition_to_half_open.invoke now out
    else
      ⟨.rejectedOpen, { b with rejected_metric := b.rejected_metric + 1 }, 0⟩
  else
    b.invoke now out

/-- Run a sequence of calls, each given as (time, operation outcome),
keeping only the final breaker state. -/
def Breaker.runCalls (b : Breaker) (events : List (Int × OpOutcome)) : Breaker :=
  events.foldl (fun b e => (b.call e.1 e.2).breaker) b

/-! ## Degrading cache client (`src/api/cache/enhanced_redis_cache.py`)

`EnhancedRedisCache` keeps a simplified two-state circuit
(`circuit_open`, `last_circuit_open_time`, `failure_count`).  The Redis
backend is external: whether the client object exists, whether establishing a
connection would succeed (`initOk`) and whether a ping would succeed
(`pingOk`) are explicit parameters of the embedding. -/

/-- The mutable state of one `EnhancedRedisCache` instance.  `clientPresent`
models `self.client is not None`. -/
structure Cache where
  enabled : Bool
  failure_threshold : Nat
  circuit_reset_time : Int
  clientPresent : Bool
  circuit_open : Bool
  last_circuit_open_time : Int
  failure_count : Nat
deriving DecidableEq, Repr

/-- `EnhancedRedisCache._handle_failure`: count the failure and open the
circuit (recording the time) once the count reaches the threshold, provided
the circuit is not already open. -/
def Cache.handle_failure (c : Cache) (now : Int) : Cache :=
  let c := { c with failure_count := c.failure_count + 1 }
  if c.failure_threshold ≤ c.failure_count ∧ c.circuit_open = false then
    { c with circuit_open := true, last_circuit_open_time := now }
  else c

/-- `EnhancedRedisCache._init_client`: on a connection error the client stays
absent and `_handle_failure("init")` runs (the exception is caught inside
`_init_client` itself). -/
def Cache.init_client (c : Cache) (now : Int) (initOk : Bool) : Cache :=
  if initOk then { c with clientPresent := true }
  else Cache.handle_failure { c with clientPresent := false } now

/-- The `try` block of `EnhancedRedisCache.is_available` after the circuit
check: lazily initialize the client, ping it when present, return `True`;
a ping exception runs `_handle_failure("ping")` and returns `False`.
Note that when the client cannot even be initialized the source skips the
ping and still returns `True` (the init exception was already swallowed). -/
def Cache.ping_path (c : Cache) (now : Int) (initOk pingOk : Bool) : Bool × Cache :=
  let c := if c.clientPresent then c else c.init_client now initOk
  if c.clientPresent then
    if pingOk then (true, c) else (false, c.handle_failure now)
  else (true, c)

/-- `EnhancedRedisCache.is_available`: while the circuit is open, either
still report unavailable, or — once strictly more than `circuit_reset_time`
has elapsed — optimistically close the circuit (resetting `failure_count` to
0) and fall through to the ping check. -/
def Cache.is_available (c : Cache) (now : Int) (initOk pingOk : Bool) : Bool × Cache :=
  if c.circuit_open then
    if c.circuit_reset_time < now - c.last_circuit_open_time then
      Cache.ping_path { c with circuit_open := false, failure_count := 0 } now initOk pingOk
    else (false, c)
  else c.ping_path now initOk pingOk

/-! ## Distributed rate limiter (`src/api/middleware/rate_limiter.py`)

The shared Redis bucket for one key is a hash with fields `tokens` and
`last_refill`, plus the key's expiry; it is embedded as `Option BucketEntry`.
All timestamps are whole seconds, as in the source (`now = int(time.time())`).
The bucket values stored by this code are integers (`remaining` is an `int`,
`last_refill` is `now`), so the stored fields are `Int`; the in-flight
token-bucket arithmetic (`refill_rate`, `new_tokens`) is exact on `ℚ`. -/

/-- One rate-limit bucket as stored in Redis: the two hash fields plus the
key's time-to-live as last set by `EXPIRE`. -/
structure BucketEntry where
  tokens : Int
  last_refill : Int
  ttl : Int
deriving DecidableEq, Repr

/-- The shared store's state for one rate-limit key. -/
abbrev Store := Option BucketEntry

/-- Python `int(...)` applied to an exact rational: truncation toward zero. -/
def pyInt (q : ℚ) : Int :=
  q.num.tdiv (q.den : Int)

/-- Configuration of `RateLimiter`: three (limit, window) pairs and the
availability-check cooldown. -/
structure RateLimiterCfg where
  anon_limit : Int
  anon_window : Int
  auth_limit : Int
  auth_window : Int
  sensitive_limit : Int
  sensitive_window : Int
  redis_check_cooldown : Int
deriving DecidableEq, Repr

/-- The defaults of `RateLimiter.__init__`: anonymous 20/60 s,
authenticated 100/60 s, sensitive 10/60 s, 5 s availability cooldown. -/
def defaultCfg : RateLimiterCfg :=
  { anon_limit := 20
    anon_window := 60
    auth_limit := 100
    auth_window := 60
    sensitive_limit := 10
    sensitive_window := 60
    redis_check_cooldown := 5 }

/-- The limit/window resolution at the top of `check_rate_limit`. -/
def resolve_limits (cfg : RateLimiterCfg) (is_authenticated is_sensitive : Bool) :
    Int × Int :=
  if is_sensitive then (cfg.sensitive_limit, cfg.sensitive_window)
  else if is_authenticated then (cfg.auth_limit, cfg.auth_window)
  else (cfg.anon_limit, cfg.anon_window)

/-- `RateLimiter._is_redis_available`: consult the real availability probe at
most once per cooldown window, otherwise assume available.  Returns the
judgment and the updated `last_redis_check`. -/
def is_redis_available (last_redis_check cooldown now : Int) (realAvail : Bool) :
    Bool × Int :=
  if cooldown < now - last_redis_check then (realAvail, now)
  else (true, last_redis_check)

/-- The token-bucket body of `check_rate_limit` (the code inside the Redis
pipeline, on the path where Redis is judged available and no backend error
occurs): read `tokens`/`last_refill` (initializing an absent bucket to a full
one), refresh the key's expiry to `window * 2`, refill at `limit / window`
tokens per second capped at `limit`, and on an allow write back
`tokens = int(new_tokens - 1)`, `last_refill = now` with a fresh expiry. -/
def token_bucket_check (store : Store) (limit window now : Int) :
    Bool × Int × Store :=
  let current_tokens : Int := match store with
    | some b => b.tokens
    | none => limit
  let last_refill : Int := match store with
    | some b => b.last_refill
    | none => now
  -- the first pipeline runs EXPIRE key (window * 2) together with the HMGET
  let store0 : Store := store.map fun b => { b with ttl := window * 2 }
  let elapsed : Int := now - last_refill
  let refill_rate : ℚ := (limit : ℚ) / (window : ℚ)
  let new_tokens : ℚ := min (limit : ℚ) ((current_tokens : ℚ) + (elapsed : ℚ) * refill_rate)
  let is_allowed : Bool := decide (1 ≤ new_tokens)
  let remaining : Int := if is_allowed then pyInt (new_tokens - 1) else 0
  let store1 : Store :=
    if is_allowed then some ⟨remaining, now, window * 2⟩ else store0
  (is_allowed, remaining, store1)

/-- `RateLimiter.check_rate_limit` for an already-resolved (limit, window):
if Redis is judged unavailable, or the pipeline raises (`backendError`), fail
open with the full limit; otherwise run the token bucket.  On the error path
the store is left as the partially-executed pipeline left it; the source
guarantees nothing about it and no claim below refers to it. -/
def check_rate_limit (store : Store) (limit window now : Int)
    (judgedAvailable backendError : Bool) : Bool × Int × Store :=
  if judgedAvailable then
    if backendError then (true, limit, store)
    else token_bucket_check store limit window now
  else (true, limit, store)

/-- Run consecutive `check_rate_limit` calls (Redis available, no errors) at
the given times, collecting each call's (allowed, remaining). -/
def runChecks (store : Store) (limit window : Int) (times : List Int) :
    List (Bool × Int) × Store :=
  times.foldl
    (fun acc t =>
      let r := check_rate_limit acc.2 limit window t true false
      (acc.1 ++ [(r.1, r.2.1)], r.2.2))
    ([], store)

/-- Outcome of `RateLimiter.rate_limit_dependency` as seen by the caller:
skipped (unprotected path), allowed, or an HTTP 429 carrying `Retry-After`. -/
inductive DepResult where
  | skipped
  | allowed (remaining : Int) (store : Store)
  | denied (retry_after : Int) (store : Store)
deriving DecidableEq, Repr

/-- `RateLimiter.rate_limit_dependency`: skip unprotected paths, run the
check, and on denial raise HTTP 429 whose `Retry-After` is
`max(1, int(reset_time - time.time()))` where `reset_time` is read from
`request.state.rate_limit_reset` with default 0.  No code in the repository
ever assigns `rate_limit_reset`, so `rl_reset_attr` is `none` in every
execution of the source. -/
def rate_limit_dependency (protected_paths : List String) (path : String)
    (rl_reset_attr : Option Int) (store : Store) (limit window now : Int)
    (judgedAvailable backendError : Bool) : DepResult :=
  if (protected_paths.any fun p => path.startsWith p) = false then .skipped
  else
    let r := check_rate_limit store limit window now judgedAvailable backendError
    if r.1 then .allowed r.2.1 r.2.2
    else
      let reset_time : Int := rl_reset_attr.getD 0
      let retry_after : Int := max 1 (reset_time - now)
      .denied retry_after r.2.2

/-- The default `protected_paths` of `RateLimiter.__init__`. -/
def defaultProtectedPaths : List String :=
  ["/api/v1/predict", "/api/v1/batch-predict"]

/-! ### Concurrent executions of `check_rate_limit` for the same key

The source executes, against the shared store, first a pipeline holding
`HMGET key tokens last_refill` and `EXPIRE key (window * 2)`, then computes
the refill locally, and only then — in a second, separate transaction —
writes `HMSET key tokens last_refill` and `EXPIRE`.  Nothing ties the write
to the read, so steps of concurrent requests for the same key may interleave
between the two.  A concurrent execution is embedded as a sequence of atomic
store events, each being one request's read pipeline or write transaction. -/

/-- The data a request holds after its read pipeline: the two hash fields it
observed (with the absent-key defaults already applied). -/
structure PendingCheck where
  readTokens : Int
  readRefill : Int
deriving DecidableEq, Repr

/-- The read pipeline of one request: `HMGET` + `EXPIRE` as one atomic store
event.  Mirrors the initialization `current_tokens = ... if ... else limit`,
`last_refill = ... if ... else now`. -/
def read_phase (store : Store) (limit window now : Int) : PendingCheck × Store :=
  (⟨match store with | some b => b.tokens | none => limit,
    match store with | some b => b.last_refill | none => now⟩,
   store.map fun b => { b with ttl := window * 2 })

/-- The local refill computation of one request, applied to what its read
pipeline observed: returns (is_allowed, remaining). -/
def decide_phase (p : PendingCheck) (limit window now : Int) : Bool × Int :=
  let elapsed : Int := now - p.readRefill
  let refill_rate : ℚ := (limit : ℚ) / (window : ℚ)
  let new_tokens : ℚ := min (limit : ℚ) ((p.readTokens : ℚ) + (elapsed : ℚ) * refill_rate)
  let is_allowed : Bool := decide (1 ≤ new_tokens)
  (is_allowed, if is_allowed then pyInt (new_tokens - 1) else 0)

/-- The write transaction of one request: `HMSET` + `EXPIRE`, executed only
on an allow. -/
def write_phase (store : Store) (is_allowed : Bool) (remaining now window : Int) :
    Store :=
  if is_allowed then some ⟨remaining, now, window * 2⟩ else store

/-- State of two concurrent `check_rate_limit` executions for the same key:
the shared store, each request's pending read data, and each request's
decision once made. -/
structure ConcState where
  store : Store
  pending1 : Option PendingCheck
  pending2 : Option PendingCheck
  result1 : Option (Bool × Int)
  result2 : Option (Bool × Int)
deriving DecidableEq, Repr

/-- One atomic store event of the two-request execution. -/
inductive ConcAct where
  | read1
  | read2
  | write1
  | write2
deriving DecidableEq, Repr

/-- Apply one event: a read runs that request's read pipeline; a write runs
its local computation on the data its own read observed, records the
decision, and applies the write transaction. -/
def concStep (limit window now : Int) (s : ConcState) : ConcAct → ConcState
  | .read1 =>
    let (p, store') := read_phase s.store limit window now
    { s with store := store', pending1 := some p }
  | .read2 =>
    let (p, store') := read_phase s.store limit window now
    { s with store := store', pending2 := some p }
  | .write1 =>
    match s.pending1 with
    | none => s
    | some p =>
      let (a, r) := decide_phase p limit window now
      { s with store := write_phase s.store a r now window, result1 := some (a, r) }
  | .write2 =>
    match s.pending2 with
    | none => s
    | some p =>
      let (a, r) := decide_phase p limit window now
      { s with store := write_phase s.store a r now window, result2 := some (a, r) }

/-- Run a schedule of events from a given shared store, both requests using
the same (limit, window) and issued at the same instant `now`. -/
def runSchedule (store : Store) (limit window now : Int) (sched : List ConcAct) :
    ConcState :=
  sched.foldl (concStep limit window now) ⟨store, none, none, none, none⟩

/-! ### Concrete instances used in counterexamples and witnesses -/

/-- How many events of a call sequence are non-whitelisted failures. -/
def countFails (evs : List (Int × OpOutcome)) : Nat :=
  evs.countP fun e => e.2 = .failOther

/-- A breaker with `failure_threshold = 5`, `recovery_timeout = 30` that has
tripped OPEN after 5 failures, the last one at time 0. -/
def breaker9 : Breaker :=
  { Breaker.init 5 30 with state := .opened, failure_count := 5, last_failure_time := 0 }

/-- A cache client with `failure_threshold = 5`, `circuit_reset_time = 30`
whose circuit tripped open at time 0 after 5 failures, client connected. -/
def cache4 : Cache :=
  { enabled := true
    failure_threshold := 5
    circuit_reset_time := 30
    clientPresent := true
    circuit_open := true
    last_circuit_open_time := 0
    failure_count := 5 }

/-! ## Serialization (`EnhancedRedisCache._serialize` / `_deserialize`)

`_serialize`/`_deserialize` dispatch on `serialization_format` to the Python
standard library: `json.dumps`/`json.loads` (the default) or
`pickle.dumps`/`pickle.loads`.  Neither library is part of this repository,
so both encodings are modelled here.  The JSON encoding is modelled
character-exactly after what `json.dumps(value)` emits with its defaults
(`ensure_ascii=True`, separators `", "` and `": "`) and a recursive-descent
reader for it; floats are excluded from the value domain (IEEE float
round-tripping is outside this embedding); the pickle encoding is modelled
from the spec (see below). -/

/-- The cacheable value shapes of the spec — null, booleans, integers,
strings, sequences and string-keyed mappings.  Strings are lists of Unicode
scalar values, as in Python. -/
inductive JValue where
  | jnull
  | jbool (b : Bool)
  | jint (n : Int)
  | jstr (s : List Char)
  | jarr (xs : List JValue)
  | jobj (kvs : List (List Char × JValue))

/-- The decimal digit characters. -/
def digitChar (n : Nat) : Char :=
  match n with
  | 0 => '0' | 1 => '1' | 2 => '2' | 3 => '3' | 4 => '4'
  | 5 => '5' | 6 => '6' | 7 => '7' | 8 => '8' | _ => '9'

/-- Decimal digits of a natural number, most significant first, as Python's
`repr` writes it. -/
def natDigits (n : Nat) : List Char :=
  if n < 10 then [digitChar n]
  else natDigits (n / 10) ++ [digitChar (n % 10)]
termination_by n
decreasing_by exact Nat.div_lt_self (by omega) (by omega)

/-- `repr` of a Python int. -/
def intDigits (n : Int) : List Char :=
  if n < 0 then '-' :: natDigits n.natAbs else natDigits n.natAbs

/-- The lowercase hexadecimal digit characters, as CPython's
`\uXXXX` escapes use. -/
def hexDigitChar (n : Nat) : Char :=
  match n with
  | 0 => '0' | 1 => '1' | 2 => '2' | 3 => '3' | 4 => '4'
  | 5 => '5' | 6 => '6' | 7 => '7' | 8 => '8' | 9 => '9'
  | 10 => 'a' | 11 => 'b' | 12 => 'c' | 13 => 'd' | 14 => 'e' | _ => 'f'

/-- The four hex digits of a `\uXXXX` escape. -/
def uEscapeDigits (n : Nat) : List Char :=
  [hexDigitChar (n / 4096 % 16), hexDigitChar (n / 256 % 16),
   hexDigitChar (n / 16 % 16), hexDigitChar (n % 16)]

/-- A `\uXXXX` escape for a code unit below 0x10000. -/
def uEscape (n : Nat) : List Char :=
  '\\' :: 'u' :: uEscapeDigits n

/-- How `json.dumps` with `ensure_ascii=True` (the default the source uses)
renders one character: the seven short escapes, `\u00XX` for other control
characters, the character itself for printable ASCII, `\uXXXX` for other
characters of the basic plane, and a surrogate pair of escapes above it. -/
def escapeChar (c : Char) : List Char :=
  if c = '\"' then ['\\', '\"']
  else if c = '\\' then ['\\', '\\']
  else if c = '\n' then ['\\', 'n']
  else if c = '\r' then ['\\', 'r']
  else if c = '\t' then ['\\', 't']
  else if c = '\x08' then ['\\', 'b']
  else if c = '\x0C' then ['\\', 'f']
  else if c.toNat < 0x20 then uEscape c.toNat
  else if c.toNat ≤ 0x7e then [c]
  else if c.toNat < 0x10000 then uEscape c.toNat
  else uEscape (0xD800 + (c.toNat - 0x10000) / 0x400)
    ++ uEscape (0xDC00 + (c.toNat - 0x10000) % 0x400)

/-- The body of a JSON string literal (without the surrounding quotes). -/
def escapeString (s : List Char) : List Char :=
  s.foldr (fun c acc => escapeChar c ++ acc) []

mutual

/-- `json.dumps(value)` with its default separators `", "` and `": "`. -/
def json_dumps_val : JValue → List Char
  | .jnull => ['n', 'u', 'l', 'l']
  | .jbool true => ['t', 'r', 'u', 'e']
  | .jbool false => ['f', 'a', 'l', 's', 'e']
  | .jint n => intDigits n
  | .jstr s => '\"' :: (escapeString s ++ ['\"'])
  | .jarr [] => ['[', ']']
  | .jarr (x :: xs) => '[' :: (json_dumps_val x ++ json_dumps_arr xs ++ [']'])
  | .jobj [] => ['{', '}']
  | .jobj (kv :: kvs) => '{' :: (json_dumps_pair kv ++ json_dumps_obj kvs ++ ['}'])

/-- One `"key": value` member. -/
def json_dumps_pair : List Char × JValue → List Char
  | (k, v) => '\"' :: (escapeString k ++ ('\"' :: ':' :: ' ' :: json_dumps_val v))

/-- The `, `-prefixed renderings of the remaining array elements. -/
def json_dumps_arr : List JValue → List Char
  | [] => []
  | x :: xs => ',' :: ' ' :: (json_dumps_val x ++ json_dumps_arr xs)

/-- The `, `-prefixed renderings of the remaining object members. -/
def json_dumps_obj : List (List Char × JValue) → List Char
  | [] => []
  | kv :: kvs => ',' :: ' ' :: (json_dumps_pair kv ++ json_dumps_obj kvs)

end

/-- The characters between `[` and `]` in a rendered array. -/
def json_dumps_arr_inner : List JValue → List Char
  | [] => []
  | x :: xs => json_dumps_val x ++ json_dumps_arr xs

/-- The characters between the braces in a rendered object. -/
def json_dumps_obj_inner : List (List Char × JValue) → List Char
  | [] => []
  | kv :: kvs => json_dumps_pair kv ++ json_dumps_obj kvs

mutual

/-- Fuel bound for the JSON reader on a value's rendering. -/
def jsize : JValue → Nat
  | .jnull | .jbool _ | .jint _ | .jstr _ => 1
  | .jarr xs => 1 + jsizeList xs
  | .jobj kvs => 1 + jsizeObj kvs

/-- Fuel bound for one object member. -/
def jsizePair : List Char × JValue → Nat
  | (_, v) => 1 + jsize v

/-- Fuel bound for an array element list. -/
def jsizeList : List JValue → Nat
  | [] => 1
  | x :: xs => 1 + jsize x + jsizeList xs

/-- Fuel bound for an object member list. -/
def jsizeObj : List (List Char × JValue) → Nat
  | [] => 1
  | kv :: kvs => 1 + jsizePair kv + jsizeObj kvs

end

/-- Decimal digit test on characters. -/
def isJDigit (c : Char) : Bool :=
  48 ≤ c.toNat ∧ c.toNat ≤ 57

/-- JSON whitespace. -/
def isWsChar (c : Char) : Bool :=
  c = ' ' ∨ c = '\t' ∨ c = '\n' ∨ c = '\r'

/-- Drop leading whitespace. -/
def skipWs : List Char → List Char
  | [] => []
  | c :: rest => if isWsChar c then skipWs rest else c :: rest

/-- Read a maximal run of decimal digits into an accumulator. -/
def parseDigits : List Char → Nat → Nat × List Char
  | [], acc => (acc, [])
  | c :: rest, acc =>
    if isJDigit c then parseDigits rest (acc * 10 + (c.toNat - 48))
    else (acc, c :: rest)

/-- Would the following character continue the literal into a float?  A
fractional or exponent part makes Python's `json.loads` produce a float,
which this embedding does not model; `json.dumps` of the embedded values
never emits one. -/
def floatFollow : List Char → Bool
  | [] => false
  | c :: _ => c = '.' ∨ c = 'e' ∨ c = 'E'

/-- What may legally follow a rendered integer for the reader to stop
exactly at its end: nothing, or a character that neither extends the digit
run nor turns the literal into a float.  Inside a rendering the next
character is always one of `,`, `]`, `}` or the end of input. -/
def numPostOk : List Char → Bool
  | [] => true
  | c :: _ => !(isJDigit c) && !(c = '.' ∨ c = 'e' ∨ c = 'E')

/-- Read a JSON integer literal. -/
def parseNumber (cs : List Char) : Option (Int × List Char) :=
  match cs with
  | [] => none
  | c :: rest =>
    if c = '-' then
      match rest with
      | [] => none
      | d :: _ =>
        if isJDigit d then
          let pr := parseDigits rest 0
          if floatFollow pr.2 then none else some (-(pr.1 : Int), pr.2)
        else none
    else if isJDigit c then
      let pr := parseDigits cs 0
      if floatFollow pr.2 then none else some ((pr.1 : Int), pr.2)
    else none

/-- The value of one short escape character. -/
def unescapeChar (c : Char) : Option Char :=
  if c = '\"' then some '\"'
  else if c = '\\' then some '\\'
  else if c = '/' then some '/'
  else if c = 'b' then some '\x08'
  else if c = 'f' then some '\x0C'
  else if c = 'n' then some '\n'
  else if c = 'r' then some '\r'
  else if c = 't' then some '\t'
  else none

/-- The value of a hexadecimal digit character (either case). -/
def hexVal (c : Char) : Option Nat :=
  if 48 ≤ c.toNat ∧ c.toNat ≤ 57 then some (c.toNat - 48)
  else if 97 ≤ c.toNat ∧ c.toNat ≤ 102 then some (c.toNat - 87)
  else if 65 ≤ c.toNat ∧ c.toNat ≤ 70 then some (c.toNat - 55)
  else none

/-- The value of four hexadecimal digit characters. -/
def hex4 (h1 h2 h3 h4 : Char) : Option Nat := do
  let a ← hexVal h1
  let b ← hexVal h2
  let c ← hexVal h3
  let d ← hexVal h4
  pure (((a * 16 + b) * 16 + c) * 16 + d)

/-- Read the four hex digits after a `\u`. -/
def parseUEscape : List Char → Option (Nat × List Char)
  | h1 :: h2 :: h3 :: h4 :: rest =>
    match hex4 h1 h2 h3 h4 with
    | none => none
    | some n => some (n, rest)
  | _ => none

/-- Decode one escape sequence (the input starts after the backslash):
either `u` followed by a `\uXXXX` code unit — a high surrogate must be
followed by a second escape completing the pair, a lone surrogate is
rejected (Lean characters are Unicode scalar values; `json.dumps` of one
never arises) — or one of the short escapes. -/
def parseEscape : List Char → Option (Char × List Char)
  | [] => none
  | e :: rest =>
    if e = 'u' then
      match parseUEscape rest with
      | none => none
      | some pr =>
        if 0xD800 ≤ pr.1 ∧ pr.1 ≤ 0xDBFF then
          match pr.2 with
          | b1 :: b2 :: rest2 =>
            if b1 = '\\' ∧ b2 = 'u' then
              match parseUEscape rest2 with
              | none => none
              | some pr2 =>
                if 0xDC00 ≤ pr2.1 ∧ pr2.1 ≤ 0xDFFF then
                  some (Char.ofNat (0x10000 + (pr.1 - 0xD800) * 0x400 + (pr2.1 - 0xDC00)), pr2.2)
                else none
            else none
          | _ => none
        else if 0xDC00 ≤ pr.1 ∧ pr.1 ≤ 0xDFFF then none
        else some (Char.ofNat pr.1, pr.2)
    else
      match unescapeChar e with
      | none => none
      | some c2 => some (c2, rest)

/-- Read the body of a JSON string literal up to and including the closing
quote, decoding escapes.  Each produced character costs one unit of fuel,
so fuel `|input|` always suffices. -/
def parseStringBody : Nat → List Char → Option (List Char × List Char)
  | 0, _ => none
  | _ + 1, [] => none
  | fuel + 1, c :: rest =>
    if c = '\"' then some ([], rest)
    else if c = '\\' then
      match parseEscape rest with
      | none => none
      | some pr => (parseStringBody fuel pr.2).map fun q => (pr.1 :: q.1, q.2)
    else (parseStringBody fuel rest).map fun q => (c :: q.1, q.2)

/-- Strip an expected literal from the input. -/
def stripLit : List Char → List Char → Option (List Char)
  | [], cs => some cs
  | _ :: _, [] => none
  | p :: ps, c :: cs => if c = p then stripLit ps cs else none

mutual

/-- Recursive-descent reader for one JSON value, with fuel bounding the
nesting. -/
def parseValue : Nat → List Char → Option (JValue × List Char)
  | 0, _ => none
  | fuel + 1, cs =>
    match cs with
    | [] => none
    | c :: rest =>
      if c = 'n' then
        match stripLit ['u', 'l', 'l'] rest with
        | none => none
        | some r => some (.jnull, r)
      else if c = 't' then
        match stripLit ['r', 'u', 'e'] rest with
        | none => none
        | some r => some (.jbool true, r)
      else if c = 'f' then
        match stripLit ['a', 'l', 's', 'e'] rest with
        | none => none
        | some r => some (.jbool false, r)
      else if c = '\"' then
        match parseStringBody rest.length rest with
        | none => none
        | some pr => some (.jstr pr.1, pr.2)
      else if c = '[' then
        match parseArrayStart fuel (skipWs rest) with
        | none => none
        | some pr => some (.jarr pr.1, pr.2)
      else if c = '{' then
        match parseObjStart fuel (skipWs rest) with
        | none => none
        | some pr => some (.jobj pr.1, pr.2)
      else parseNumber (c :: rest)
        |>.map fun pr => (.jint pr.1, pr.2)

/-- After `[`: either an immediate `]` or a first element and the tail. -/
def parseArrayStart : Nat → List Char → Option (List JValue × List Char)
  | 0, _ => none
  | fuel + 1, cs =>
    match cs with
    | [] => none
    | c :: rest =>
      if c = ']' then some ([], rest)
      else
        match parseValue fuel (c :: rest) with
        | none => none
        | some pr =>
          match parseArrayTail fuel (skipWs pr.2) with
          | none => none
          | some pr2 => some (pr.1 :: pr2.1, pr2.2)

/-- After an element: `]` ends the array, `, ` continues it. -/
def parseArrayTail : Nat → List Char → Option (List JValue × List Char)
  | 0, _ => none
  | fuel + 1, cs =>
    match cs with
    | [] => none
    | c :: rest =>
      if c = ']' then some ([], rest)
      else if c = ',' then
        match parseValue fuel (skipWs rest) with
        | none => none
        | some pr =>
          match parseArrayTail fuel (skipWs pr.2) with
          | none => none
          | some pr2 => some (pr.1 :: pr2.1, pr2.2)
      else none

/-- One `"key": value` member. -/
def parsePair : Nat → List Char → Option ((List Char × JValue) × List Char)
  | 0, _ => none
  | fuel + 1, cs =>
    match cs with
    | [] => none
    | c :: rest =>
      if c = '\"' then
        match parseStringBody rest.length rest with
        | none => none
        | some pr =>
          match skipWs pr.2 with
          | [] => none
          | c2 :: r2 =>
            if c2 = ':' then
              match parseValue fuel (skipWs r2) with
              | none => none
              | some pr2 => some ((pr.1, pr2.1), pr2.2)
            else none
      else none

/-- After `{`: either an immediate `}` or a first member and the tail. -/
def parseObjStart : Nat → List Char → Option (List (List Char × JValue) × List Char)
  | 0, _ => none
  | fuel + 1, cs =>
    match cs with
    | [] => none
    | c :: rest =>
      if c = '}' then some ([], rest)
      else
        match parsePair fuel (c :: rest) with
        | none => none
        | some pr =>
          match parseObjTail fuel (skipWs pr.2) with
          | none => none
          | some pr2 => some (pr.1 :: pr2.1, pr2.2)

/-- After a member: `}` ends the object, `, ` continues it. -/
def parseObjTail : Nat → List Char → Option (List (List Char × JValue) × List Char)
  | 0, _ => none
  | fuel + 1, cs =>
    match cs with
    | [] => none
    | c :: rest =>
      if c = '}' then some ([], rest)
      else if c = ',' then
        match parsePair fuel (skipWs rest) with
        | none => none
        | some pr =>
          match parseObjTail fuel (skipWs pr.2) with
          | none => none
          | some pr2 => some (pr.1 :: pr2.1, pr2.2)
      else none

end

/-- `json.loads`: read one value (fuel `2|s| + 2` covers any nesting a
rendering of that length can hold), allowing surrounding whitespace, and
reject trailing garbage. -/
def json_loads (cs : List Char) : Option JValue :=
  match parseValue (2 * cs.length + 2) (skipWs cs) with
  | some pr => if (skipWs pr.2).isEmpty then some pr.1 else none
  | none => none

/-- No duplicates among a member list's keys (Python dicts cannot hold
duplicate keys, and `json.loads` would collapse them). -/
def keysNodup : List (List Char) → Bool
  | [] => true
  | k :: ks => !(ks.contains k) && keysNodup ks

mutual

/-- Well-formedness of a value as an image of a Python object: every
mapping's keys are pairwise distinct. -/
def jwf : JValue → Bool
  | .jnull | .jbool _ | .jint _ | .jstr _ => true
  | .jarr xs => jwfList xs
  | .jobj kvs => keysNodup (kvs.map fun kv => kv.1) && jwfObj kvs

/-- All array elements well-formed. -/
def jwfList : List JValue → Bool
  | [] => true
  | x :: xs => jwf x && jwfList xs

/-- All member values well-formed. -/
def jwfObj : List (List Char × JValue) → Bool
  | [] => true
  | kv :: kvs => jwf kv.2 && jwfObj kvs

end

/-! ### The pickle branch

Modelled from the spec: the `"pickle"` branch of `_serialize`/`_deserialize`
calls the Python standard library's `pickle.dumps`/`pickle.loads`, which is
not code of this repository; §4.2 describes it only as "a richer
binary/object encoding" that "must round-trip all cacheable value shapes".
It is modelled as a concrete tagged byte-stream encoding of the same value
domain: tags 0–5 introduce null/bool/int/string/list/dict, 6 ends a
container, 7 introduces a dict entry; naturals are little-endian base-255
digit strings terminated by 255; strings are their scalar values terminated
by the out-of-range sentinel 0x110000. -/

/-- Modelled from the spec: natural numbers in the binary encoding. -/
def encNat (n : Nat) : List Nat :=
  if n < 255 then [n, 255] else (n % 255) :: encNat (n / 255)
termination_by n
decreasing_by exact Nat.div_lt_self (by omega) (by omega)

/-- Read back an `encNat` number. -/
def decNat : List Nat → Option (Nat × List Nat)
  | [] => none
  | b :: rest =>
    if b = 255 then some (0, rest)
    else
      match decNat rest with
      | none => none
      | some pr => some (b + 255 * pr.1, pr.2)

/-- Modelled from the spec: strings in the binary encoding. -/
def encStr (s : List Char) : List Nat :=
  s.map Char.toNat ++ [0x110000]

/-- Read back an `encStr` string. -/
def decStr : List Nat → Option (List Char × List Nat)
  | [] => none
  | b :: rest =>
    if b = 0x110000 then some ([], rest)
    else
      match decStr rest with
      | none => none
      | some pr => some (Char.ofNat b :: pr.1, pr.2)

mutual

/-- Modelled from the spec: `pickle.dumps` on the cacheable value domain. -/
def pickle_dumps_val : JValue → List Nat
  | .jnull => [0]
  | .jbool b => [1, if b then 1 else 0]
  | .jint n => 2 :: (if n < 0 then 1 else 0) :: encNat n.natAbs
  | .jstr s => 3 :: encStr s
  | .jarr xs => 4 :: (pickle_dumps_list xs ++ [6])
  | .jobj kvs => 5 :: (pickle_dumps_obj kvs ++ [6])

/-- The concatenated encodings of a list's elements. -/
def pickle_dumps_list : List JValue → List Nat
  | [] => []
  | x :: xs => pickle_dumps_val x ++ pickle_dumps_list xs

/-- The concatenated encodings of a dict's entries. -/
def pickle_dumps_obj : List (List Char × JValue) → List Nat
  | [] => []
  | kv :: kvs => 7 :: (encStr kv.1 ++ pickle_dumps_val kv.2) ++ pickle_dumps_obj kvs

end

mutual

/-- Fuel bound for the binary reader. -/
def psize : JValue → Nat
  | .jnull | .jbool _ | .jint _ | .jstr _ => 1
  | .jarr xs => 1 + psizeList xs
  | .jobj kvs => 1 + psizeObj kvs

/-- Fuel bound for a list's elements. -/
def psizeList : List JValue → Nat
  | [] => 1
  | x :: xs => 1 + psize x + psizeList xs

/-- Fuel bound for a dict's entries. -/
def psizeObj : List (List Char × JValue) → Nat
  | [] => 1
  | kv :: kvs => 1 + psize kv.2 + psizeObj kvs

end

mutual

/-- Read back one encoded value. -/
def parsePickle : Nat → List Nat → Option (JValue × List Nat)
  | 0, _ => none
  | fuel + 1, bs =>
    match bs with
    | [] => none
    | t :: rest =>
      if t = 0 then some (.jnull, rest)
      else if t = 1 then
        match rest with
        | [] => none
        | b :: r => some (.jbool (decide (b = 1)), r)
      else if t = 2 then
        match rest with
        | [] => none
        | s :: r =>
          match decNat r with
          | none => none
          | some pr =>
            some (.jint (if s = 1 then -(pr.1 : Int) else (pr.1 : Int)), pr.2)
      else if t = 3 then
        match decStr rest with
        | none => none
        | some pr => some (.jstr pr.1, pr.2)
      else if t = 4 then
        match parsePickleList fuel rest with
        | none => none
        | some pr => some (.jarr pr.1, pr.2)
      else if t = 5 then
        match parsePickleObj fuel rest with
        | none => none
        | some pr => some (.jobj pr.1, pr.2)
      else none

/-- Read back a list's elements up to the end marker. -/
def parsePickleList : Nat → List Nat → Option (List JValue × List Nat)
  | 0, _ => none
  | fuel + 1, bs =>
    match bs with
    | [] => none
    | t :: rest =>
      if t = 6 then some ([], rest)
      else
        match parsePickle fuel (t :: rest) with
        | none => none
        | some pr =>
          match parsePickleList fuel pr.2 with
          | none => none
          | some pr2 => some (pr.1 :: pr2.1, pr2.2)

/-- Read back a dict's entries up to the end marker. -/
def parsePickleObj : Nat → List Nat → Option (List (List Char × JValue) × List Nat)
  | 0, _ => none
  | fuel + 1, bs =>
    match bs with
    | [] => none
    | t :: rest =>
      if t = 6 then some ([], rest)
      else if t = 7 then
        match decStr rest with
        | none => none
        | some pr =>
          match parsePickle fuel pr.2 with
          | none => none
          | some pr2 =>
            match parsePickleObj fuel pr2.2 with
            | none => none
            | some pr3 => some ((pr.1, pr2.1) :: pr3.1, pr3.2)
      else none

end

/-- Modelled from the spec: `pickle.loads` — read one value (fuel
`4|b| + 1` covers any nesting an encoding of that length can hold) and
reject trailing garbage. -/
def pickle_loads (bs : List Nat) : Option JValue :=
  match parsePickle (4 * bs.length + 1) bs with
  | some pr => if pr.2.isEmpty then some pr.1 else none
  | none => none

/-- The two values of the `serialization_format` configuration key the
source distinguishes (`"pickle"`, and anything else meaning json). -/
inductive SerializationFormat where
  | json
  | pickle

/-- A serialized value: `str` from the json branch, `bytes` from the
pickle branch. -/
inductive Encoded where
  | text (s : List Char)
  | binary (b : List Nat)

/-- `EnhancedRedisCache._serialize`: dispatch on the configured format. -/
def serialize (fmt : SerializationFormat) (v : JValue) : Encoded :=
  match fmt with
  | .pickle => .binary (pickle_dumps_val v)
  | .json => .text (json_dumps_val v)

/-- `EnhancedRedisCache._deserialize` on a present value (on `None` the
source returns `None` before dispatching). -/
def deserialize (fmt : SerializationFormat) (e : Encoded) : Option JValue :=
  match fmt, e with
  | .pickle, .binary b => pickle_loads b
  | .json, .text s => json_loads s
  | .pickle, .text _ => none
  | .json, .binary _ => none

/-- A concrete cacheable value exercising nesting, both container kinds,
escapes, negative integers and a non-ASCII character. -/
def c8val : JValue :=
  .jobj [(['a'], .jarr [.jint 17, .jint (-3), .jstr ['x', '\n', 'é'], .jnull, .jbool true]),
         (['b'], .jobj [([], .jstr []), (['n'], .jint 0)])]

/-!
# Theorems
-/

/-! ## Faithfulness of the phase split -/

/-- Splitting `token_bucket_check` into the read event, the local
computation and the write event is faithful: composed sequentially they are
exactly the monolithic definition. -/
theorem token_bucket_check_phases (store : Store) (limit window now : Int) :
    token_bucket_check store limit window now =
      (let pr := read_phase store limit window now
       let ar := decide_phase pr.1 limit window now
       (ar.1, ar.2, write_phase pr.2 ar.1 ar.2 now window)) := by
  cases store <;>
    simp only [token_bucket_check, read_phase, decide_phase, write_phase]

/-! ## Supporting lemmas about the circuit breaker -/

/-- A single `call` never changes the breaker's configuration. -/
theorem Breaker.call_preserves_config (b : Breaker) (t : Int) (o : OpOutcome) :
    ((b.call t o).breaker).failure_threshold = b.failure_threshold ∧
    ((b.call t o).breaker).recovery_timeout = b.recovery_timeout := by
  cases o <;>
    simp only [Breaker.call, Breaker.invoke, Breaker.on_success, Breaker.on_failure,
      Breaker.transition_to_closed, Breaker.transition_to_open,
      Breaker.transition_to_half_open] <;>
    split <;> (try split) <;> simp

/-- While CLOSED and strictly below the threshold, any sequence of calls
leaves the breaker CLOSED with `failure_count` equal to the number of
non-whitelisted failures seen, and keeps its configuration. -/
theorem Breaker.runCalls_closed (evs : List (Int × OpOutcome)) :
    ∀ b : Breaker, b.state = .closed →
      b.failure_count + countFails evs < b.failure_threshold →
      (b.runCalls evs).state = .closed ∧
      (b.runCalls evs).failure_count = b.failure_count + countFails evs ∧
      (b.runCalls evs).failure_threshold = b.failure_threshold ∧
      (b.runCalls evs).recovery_timeout = b.recovery_timeout := by
  induction evs with
  | nil => intro b hb _; simpa [Breaker.runCalls, countFails] using hb
  | cons e evs ih =>
    intro b hb hlt
    have hstep : Breaker.runCalls b (e :: evs) = Breaker.runCalls (b.call e.1 e.2).breaker evs := by
      simp [Breaker.runCalls]
    rw [hstep]
    have hcf : countFails (e :: evs) = (if e.2 = .failOther then 1 else 0) + countFails evs := by
      simp only [countFails, List.countP_cons]
      split <;> simp_all <;> omega
    cases ho : e.2 with
    | success =>
      have hb' : (b.call e.1 .success).breaker =
          { b with success_metric := b.success_metric + 1 } := by
        simp [Breaker.call, hb, Breaker.invoke, Breaker.on_success]
      rw [hb']
      have := ih { b with success_metric := b.success_metric + 1 } (by simpa using hb)
        (by simp only [hcf, ho] at hlt ⊢; simpa using hlt)
      simpa [hcf, ho] using this
    | failWhitelisted =>
      have hb' : (b.call e.1 .failWhitelisted).breaker = b := by
        simp [Breaker.call, hb, Breaker.invoke]
      rw [hb']
      have := ih b hb (by simp only [hcf, ho] at hlt ⊢; simpa using hlt)
      simpa [hcf, ho] using this
    | failOther =>
      have hnot : ¬ (b.failure_threshold ≤ b.failure_count + 1) := by
        simp only [hcf, ho, if_pos] at hlt
        omega
      have hb' : (b.call e.1 .failOther).breaker =
          { b with last_failure_time := e.1, failure_count := b.failure_count + 1,
                   failure_metric := b.failure_metric + 1 } := by
        simp [Breaker.call, hb, Breaker.invoke, Breaker.on_failure, hnot]
      rw [hb']
      have hlt' : b.failure_count + 1 + countFails evs < b.failure_threshold := by
        simp only [hcf, ho, if_pos] at hlt; omega
      have := ih { b with last_failure_time := e.1, failure_count := b.failure_count + 1,
                          failure_metric := b.failure_metric + 1 }
        (by simpa using hb)
        (by simpa using hlt')
      simp only [hcf, ho] at *
      refine ⟨this.1, ?_, ?_, ?_⟩ <;> simp_all <;> omega

/-- A non-whitelisted failure from CLOSED with the count one short of the
threshold opens the circuit and stamps `last_failure_time`. -/
theorem Breaker.call_fail_opens (b : Breaker) (t : Int) (hb : b.state = .closed)
    (h : b.failure_threshold ≤ b.failure_count + 1) :
    ((b.call t .failOther).breaker).state = .opened ∧
    ((b.call t .failOther).breaker).last_failure_time = t := by
  simp [Breaker.call, hb, Breaker.invoke, Breaker.on_failure, h,
    Breaker.transition_to_open]

/-- Running a concatenation of call sequences runs them in order. -/
theorem Breaker.runCalls_append (b : Breaker) (l1 l2 : List (Int × OpOutcome)) :
    b.runCalls (l1 ++ l2) = (b.runCalls l1).runCalls l2 := by
  simp [Breaker.runCalls, List.foldl_append]

/-- No sequence of calls changes the breaker's configuration. -/
theorem Breaker.runCalls_preserves_config (evs : List (Int × OpOutcome)) :
    ∀ b : Breaker,
      (b.runCalls evs).failure_threshold = b.failure_threshold ∧
      (b.runCalls evs).recovery_timeout = b.recovery_timeout := by
  induction evs with
  | nil => intro b; simp [Breaker.runCalls]
  | cons e evs ih =>
    intro b
    have hstep : Breaker.runCalls b (e :: evs) =
        Breaker.runCalls (b.call e.1 e.2).breaker evs := by
      simp [Breaker.runCalls]
    rw [hstep]
    have h1 := Breaker.call_preserves_config b e.1 e.2
    have h2 := ih (b.call e.1 e.2).breaker
    exact ⟨h2.1.trans h1.1, h2.2.trans h1.2⟩

/-- The number of failure events in an all-failure sequence is its length. -/
theorem countFails_all_fail (ts : List Int) :
    countFails (ts.map fun t => (t, OpOutcome.failOther)) = ts.length := by
  simp [countFails, List.countP_map, Function.comp_def]

/-! ## C2 -/

/-- C2.  For every breaker with `failure_threshold = T ≥ 1` starting in
CLOSED with `failure_count = 0` (a fresh `Breaker.init T timeout`): every
proper prefix of a run of T consecutive calls whose operation raises a
non-whitelisted exception leaves the state CLOSED, after exactly the T-th
such call the state is OPEN, and the (T+1)-th call — issued strictly before
`recovery_timeout` has elapsed since `last_failure_time` — ends in
`CircuitBreakerOpenException` without invoking the wrapped operation. -/
theorem c2_threshold_failures_open_circuit
    (T : Nat) (hT : 1 ≤ T) (timeout : Int) (ts : List Int) (hlen : ts.length = T)
    (t' : Int) (out : OpOutcome)
    (hbefore : t' - ((Breaker.init T timeout).runCalls
        (ts.map fun t => (t, .failOther))).last_failure_time < timeout) :
    (∀ k, k < T → ((Breaker.init T timeout).runCalls
        ((ts.map fun t => (t, .failOther)).take k)).state = .closed) ∧
    ((Breaker.init T timeout).runCalls (ts.map fun t => (t, .failOther))).state = .opened ∧
    (((Breaker.init T timeout).runCalls (ts.map fun t => (t, .failOther))).call t' out).result
      = .rejectedOpen ∧
    (((Breaker.init T timeout).runCalls (ts.map fun t => (t, .failOther))).call t' out).invocations
      = 0 := by
  have hne : ts ≠ [] := by
    intro h; rw [h] at hlen; simp at hlen; omega
  -- prefixes of length k < T stay CLOSED
  have hpref : ∀ k, k < T → ((Breaker.init T timeout).runCalls
      ((ts.map fun t => (t, .failOther)).take k)).state = .closed := by
    intro k hk
    have htake : (ts.map fun t => (t, OpOutcome.failOther)).take k
        = (ts.take k).map fun t => (t, OpOutcome.failOther) := by
      simp [List.map_take]
    rw [htake]
    have hcount : countFails ((ts.take k).map fun t => (t, OpOutcome.failOther))
        = min k T := by
      rw [countFails_all_fail, List.length_take, hlen]
    refine (Breaker.runCalls_closed _ _ rfl ?_).1
    rw [hcount]
    simp [Breaker.init]
    omega
  refine ⟨hpref, ?_⟩
  -- split the run into the first T-1 failures and the final one
  have hsplit : ts.map (fun t => (t, OpOutcome.failOther))
      = (ts.dropLast.map fun t => (t, OpOutcome.failOther))
        ++ [(ts.getLast hne, OpOutcome.failOther)] := by
    conv_lhs => rw [← List.dropLast_append_getLast hne]
    simp
  have hmid := Breaker.runCalls_closed (ts.dropLast.map fun t => (t, OpOutcome.failOther))
    (Breaker.init T timeout) rfl
    (by rw [countFails_all_fail, List.length_dropLast, hlen]; simp [Breaker.init]; omega)
  set bmid := (Breaker.init T timeout).runCalls
    (ts.dropLast.map fun t => (t, OpOutcome.failOther)) with hbmid
  have hmidthr : bmid.failure_threshold = T := by
    rw [hmid.2.2.1]; simp [Breaker.init]
  have hmidcnt : bmid.failure_count = T - 1 := by
    rw [hmid.2.1, countFails_all_fail, List.length_dropLast, hlen]; simp [Breaker.init]
  have hopen := Breaker.call_fail_opens bmid (ts.getLast hne) hmid.1
    (by rw [hmidthr, hmidcnt]; omega)
  have hT' : (Breaker.init T timeout).runCalls (ts.map fun t => (t, OpOutcome.failOther))
      = (bmid.call (ts.getLast hne) .failOther).breaker := by
    rw [hsplit, Breaker.runCalls_append, ← hbmid]
    simp [Breaker.runCalls]
  rw [hT'] at hbefore ⊢
  set bT := (bmid.call (ts.getLast hne) .failOther).breaker with hbT
  have htimeout : bT.recovery_timeout = timeout := by
    have := (Breaker.call_preserves_config bmid (ts.getLast hne) .failOther).2
    rw [hbT, this, hmid.2.2.2]
    simp [Breaker.init]
  have hnorec : bT.should_attempt_recovery t' = false := by
    simp only [Breaker.should_attempt_recovery, htimeout, decide_eq_false_iff_not, not_le]
    omega
  refine ⟨hopen.1, ?_, ?_⟩ <;> simp [Breaker.call, hopen.1, hnorec]

/-- Witness for C2 at T = 2, timeout 30s, failures at times 0 and 1, second
call at time 5 (4s after the last failure, before the 30s timeout). -/
theorem c2_threshold_failures_open_circuit_witness :
    ((Breaker.init 2 30).runCalls [(0, .failOther), (1, .failOther)]).state = .opened ∧
    (((Breaker.init 2 30).runCalls [(0, .failOther), (1, .failOther)]).call 5 .success).result
      = .rejectedOpen ∧
    (((Breaker.init 2 30).runCalls [(0, .failOther), (1, .failOther)]).call 5 .success).invocations
      = 0 := by
  have h := c2_threshold_failures_open_circuit 2 (by decide) 30 [0, 1] rfl 5 .success
    (by decide)
  exact ⟨h.2.1, h.2.2.1, h.2.2.2⟩

/-! ## C6 -/

/-- C6.  If the breaker is OPEN and `recovery_timeout` has elapsed since
`last_failure_time`, the next `call` transitions to HALF_OPEN, invokes the
wrapped operation exactly once, and then: on success the state is CLOSED
with `failure_count = 0`; on a non-whitelisted failure the state is OPEN
with `last_failure_time` updated to the current time. -/
theorem c6_recovery_halfopen (b : Breaker) (now : Int) (out : OpOutcome)
    (hb : b.state = .opened)
    (ht : b.recovery_timeout ≤ now - b.last_failure_time) :
    b.call now out = b.transition_to_half_open.invoke now out ∧
    (b.call now out).invocations = 1 ∧
    (out = .success →
      (b.call now out).breaker.state = .closed ∧
      (b.call now out).breaker.failure_count = 0) ∧
    (out = .failOther →
      (b.call now out).breaker.state = .opened ∧
      (b.call now out).breaker.last_failure_time = now) := by
  have hrec : b.should_attempt_recovery now = true := by
    simpa [Breaker.should_attempt_recovery] using ht
  have hcall : b.call now out = b.transition_to_half_open.invoke now out := by
    simp [Breaker.call, hb, hrec]
  refine ⟨hcall, ?_, ?_, ?_⟩ <;> rw [hcall]
  · cases out <;> simp [Breaker.invoke]
  · rintro rfl
    simp [Breaker.invoke, Breaker.on_success, Breaker.transition_to_half_open,
      Breaker.transition_to_closed]
  · rintro rfl
    simp [Breaker.invoke, Breaker.on_failure, Breaker.transition_to_half_open,
      Breaker.transition_to_open]

/-- Witness for C6: `breaker9` (OPEN since time 0, 30s timeout) called at
time 30 with a succeeding operation, and with a failing one. -/
theorem c6_recovery_halfopen_witness :
    ((breaker9.call 30 .success).invocations = 1 ∧
      (breaker9.call 30 .success).breaker.state = .closed ∧
      (breaker9.call 30 .success).breaker.failure_count = 0) ∧
    ((breaker9.call 30 .failOther).breaker.state = .opened ∧
      (breaker9.call 30 .failOther).breaker.last_failure_time = 30) := by
  have hs := c6_recovery_halfopen breaker9 30 .success (by decide) (by decide)
  have hf := c6_recovery_halfopen breaker9 30 .failOther (by decide) (by decide)
  exact ⟨⟨hs.2.1, (hs.2.2.1 rfl).1, (hs.2.2.1 rfl).2⟩,
    (hf.2.2.2 rfl).1, (hf.2.2.2 rfl).2⟩

/-! ## C9 (corrected) -/

/-- Counterexample to C9 as stated: from the breaker state OPEN with the
recovery timeout elapsed (`breaker9` at time 30), a call whose wrapped
operation raises a whitelisted exception does NOT leave the state
unchanged — the call flips OPEN to HALF_OPEN before invoking the operation
and the whitelisted failure leaves it there. -/
theorem c9_whitelisted_counterexample :
    (breaker9.call 30 .failWhitelisted).result = .raisedWhitelisted ∧
    (breaker9.call 30 .failWhitelisted).invocations = 1 ∧
    (breaker9.call 30 .failWhitelisted).breaker.state = .halfOpen ∧
    breaker9.state = .opened ∧
    (breaker9.call 30 .failWhitelisted).breaker.state ≠ breaker9.state := by
  decide

/-- C9 as amended.  For every breaker state other than OPEN (where the
OPEN-entry bookkeeping of `call` itself can transition to HALF_OPEN before
the operation runs), a call whose wrapped operation raises a whitelisted
exception re-propagates the exception unchanged and leaves the whole breaker
— state, `failure_count`, `last_failure_time`, and all metrics — exactly as
it was, for any number of repetitions. -/
theorem c9_amended_whitelisted_invisible (b : Breaker) (now : Int) (n : Nat)
    (hb : b.state ≠ .opened) :
    b.call now .failWhitelisted = ⟨.raisedWhitelisted, b, 1⟩ ∧
    b.runCalls (List.replicate n (now, .failWhitelisted)) = b := by
  have hone : b.call now .failWhitelisted = ⟨.raisedWhitelisted, b, 1⟩ := by
    simp [Breaker.call, hb, Breaker.invoke]
  refine ⟨hone, ?_⟩
  induction n with
  | zero => simp [Breaker.runCalls]
  | succ n ih =>
    have : List.replicate (n + 1) ((now, OpOutcome.failWhitelisted))
        = (now, OpOutcome.failWhitelisted) :: List.replicate n (now, .failWhitelisted) := by
      simp [List.replicate_succ]
    rw [this]
    have hstep : Breaker.runCalls b ((now, OpOutcome.failWhitelisted)
        :: List.replicate n (now, .failWhitelisted))
        = Breaker.runCalls (b.call now .failWhitelisted).breaker
            (List.replicate n (now, .failWhitelisted)) := by
      simp [Breaker.runCalls]
    rw [hstep, hone]
    exact ih

/-- Witness for C9-as-amended: a CLOSED breaker with some accumulated
failures absorbs 4 whitelisted-failure calls unchanged. -/
theorem c9_amended_whitelisted_invisible_witness :
    ({ Breaker.init 5 30 with failure_count := 3 } : Breaker).call 7 .failWhitelisted
      = ⟨.raisedWhitelisted, { Breaker.init 5 30 with failure_count := 3 }, 1⟩ ∧
    ({ Breaker.init 5 30 with failure_count := 3 } : Breaker).runCalls
        (List.replicate 4 (7, .failWhitelisted))
      = { Breaker.init 5 30 with failure_count := 3 } := by
  exact c9_amended_whitelisted_invisible _ 7 4 (by decide)

/-! ## C10 -/

/-- C10.  A successful call while CLOSED leaves `failure_count` (and the
CLOSED state) unchanged; consequently a cumulative total of
`failure_threshold = T` non-whitelisted failures since the breaker was last
CLOSED-with-zero-count opens the circuit even when the failures are
interleaved with arbitrarily many successes: any sequence of
success/non-whitelisted-failure calls containing T - 1 failures leaves the
breaker CLOSED with `failure_count = T - 1`, and one further failing call
then opens it. -/
theorem c10_success_preserves_failure_count :
    (∀ (b : Breaker) (now : Int), b.state = .closed →
      ((b.call now .success).breaker).failure_count = b.failure_count ∧
      ((b.call now .success).breaker).state = .closed) ∧
    (∀ (T : Nat), 1 ≤ T → ∀ (timeout : Int) (evs : List (Int × OpOutcome)),
      countFails evs = T - 1 → ∀ t : Int,
      ((Breaker.init T timeout).runCalls evs).state = .closed ∧
      ((Breaker.init T timeout).runCalls evs).failure_count = T - 1 ∧
      ((((Breaker.init T timeout).runCalls evs).call t .failOther).breaker).state
        = .opened) := by
  constructor
  · intro b now hb
    simp [Breaker.call, hb, Breaker.invoke, Breaker.on_success]
  · intro T hT timeout evs hcount t
    have hrun := Breaker.runCalls_closed evs (Breaker.init T timeout) rfl
      (by rw [hcount]; simp [Breaker.init]; omega)
    have hcnt : ((Breaker.init T timeout).runCalls evs).failure_count = T - 1 := by
      rw [hrun.2.1, hcount]; simp [Breaker.init]
    have hthr : ((Breaker.init T timeout).runCalls evs).failure_threshold = T := by
      rw [hrun.2.2.1]; simp [Breaker.init]
    exact ⟨hrun.1, hcnt,
      (Breaker.call_fail_opens _ t hrun.1 (by rw [hthr, hcnt]; omega)).1⟩

/-- Witness for C10: threshold 2; failures at times 0 and 9 separated by
successes at 1 and 2 still open the circuit. -/
theorem c10_success_preserves_failure_count_witness :
    (((Breaker.init 2 30).runCalls [(0, .failOther), (1, .success), (2, .success)]).state
      = .closed) ∧
    (((Breaker.init 2 30).runCalls [(0, .failOther), (1, .success), (2, .success)]).failure_count
      = 1) ∧
    (((((Breaker.init 2 30).runCalls
        [(0, .failOther), (1, .success), (2, .success)]).call 9 .failOther).breaker).state
      = .opened) := by
  have h := c10_success_preserves_failure_count.2 2 (by decide) 30
    [(0, .failOther), (1, .success), (2, .success)] (by decide) 9
  exact h

/-! ## Serialization round trip: digits and integer literals -/

/-- Code and digit-hood of each decimal digit character. -/
theorem digitChar_spec (d : Nat) (h : d < 10) :
    (digitChar d).toNat = 48 + d ∧ isJDigit (digitChar d) = true := by
  interval_cases d <;> exact ⟨by decide, by decide⟩

/-- A rendered natural starts with a digit character. -/
theorem natDigits_head (n : Nat) :
    ∃ d l, natDigits n = digitChar d :: l ∧ d < 10 := by
  induction n using Nat.strong_induction_on with
  | _ n ih =>
    rw [natDigits]
    by_cases h : n < 10
    · exact ⟨n, [], by simp [h], h⟩
    · obtain ⟨d, l, hd, hdl⟩ := ih (n / 10) (Nat.div_lt_self (by omega) (by omega))
      exact ⟨d, l ++ [digitChar (n % 10)], by simp [h, hd], hdl⟩

/-- `natDigits` renders at least one character. -/
theorem natDigits_ne_nil (n : Nat) : natDigits n ≠ [] := by
  obtain ⟨d, l, hd, _⟩ := natDigits_head n
  simp [hd]

/-- The digit reader consumes a rendered natural exactly. -/
theorem parseDigits_natDigits (n : Nat) : ∀ acc rest,
    parseDigits (natDigits n ++ rest) acc
      = parseDigits rest (acc * 10 ^ (natDigits n).length + n) := by
  induction n using Nat.strong_induction_on with
  | _ n ih =>
    intro acc rest
    by_cases h : n < 10
    · rw [natDigits, if_pos h]
      have hd := digitChar_spec n h
      simp only [List.singleton_append, List.length_singleton, parseDigits, hd.1, hd.2,
        if_true, pow_one]
      congr 1
      omega
    · conv_lhs => rw [natDigits, if_neg h]
      rw [List.append_assoc,
        ih (n / 10) (Nat.div_lt_self (by omega) (by omega)) acc
          ([digitChar (n % 10)] ++ rest)]
      have hd := digitChar_spec (n % 10) (Nat.mod_lt _ (by omega))
      simp only [List.singleton_append, parseDigits, hd.1, hd.2, if_true]
      have hlen : (natDigits n).length = (natDigits (n / 10)).length + 1 := by
        conv_lhs => rw [natDigits, if_neg h]
        simp
      rw [hlen]
      congr 1
      have hexp : acc * 10 ^ ((natDigits (n / 10)).length + 1)
          = acc * 10 ^ (natDigits (n / 10)).length * 10 := by
        ring
      rw [hexp]
      omega

/-- The digit reader stops at a non-digit. -/
theorem parseDigits_stop (rest : List Char) (acc : Nat)
    (h : numPostOk rest = true) : parseDigits rest acc = (acc, rest) := by
  cases rest with
  | nil => rfl
  | cons c l =>
    simp only [numPostOk, Bool.and_eq_true, Bool.not_eq_true'] at h
    simp [parseDigits, h.1]

/-- A rendered integer does not look like the start of a float. -/
theorem floatFollow_of_numPostOk (rest : List Char) (h : numPostOk rest = true) :
    floatFollow rest = false := by
  cases rest with
  | nil => rfl
  | cons c l =>
    simp only [numPostOk, Bool.and_eq_true, Bool.not_eq_true'] at h
    simpa [floatFollow] using h.2

/-- The number reader inverts `intDigits`. -/
theorem parseNumber_intDigits (n : Int) (rest : List Char) (h : numPostOk rest = true) :
    parseNumber (intDigits n ++ rest) = some (n, rest) := by
  obtain ⟨d, l, hd, hdl⟩ := natDigits_head n.natAbs
  have hds := digitChar_spec d hdl
  have hrun : parseDigits (natDigits n.natAbs ++ rest) 0 = (n.natAbs, rest) := by
    rw [parseDigits_natDigits, parseDigits_stop rest _ h]
    simp
  by_cases hn : n < 0
  · rw [intDigits, if_pos hn, List.cons_append]
    rw [hd, List.cons_append]
    simp only [parseNumber, if_pos rfl]
    rw [← List.cons_append, ← hd]
    simp only [hds.2, if_true, hrun, floatFollow_of_numPostOk rest h, if_false]
    have hcast : -((n.natAbs : Nat) : Int) = n := by omega
    rw [hcast]
    simp
  · rw [intDigits, if_neg hn]
    rw [hd, List.cons_append]
    have hnotminus : digitChar d ≠ '-' := by
      intro hc
      have : (digitChar d).toNat = 45 := by rw [hc]; decide
      omega
    simp only [parseNumber, if_neg hnotminus, hds.2, if_true]
    rw [← List.cons_append, ← hd]
    simp only [hrun, floatFollow_of_numPostOk rest h, if_false]
    have hcast : ((n.natAbs : Nat) : Int) = n := by omega
    rw [hcast]
    simp

/-! ## Serialization round trip: string escapes -/

/-- The hex reader inverts the hex digit characters. -/
theorem hexVal_hexDigitChar (d : Nat) (h : d < 16) :
    hexVal (hexDigitChar d) = some d := by
  interval_cases d <;> decide

/-- The four-digit hex reader inverts a `\uXXXX` escape's digits. -/
theorem hex4_hexDigits (n : Nat) (h : n < 0x10000) :
    hex4 (hexDigitChar (n / 4096 % 16)) (hexDigitChar (n / 256 % 16))
      (hexDigitChar (n / 16 % 16)) (hexDigitChar (n % 16)) = some n := by
  have h1 := hexVal_hexDigitChar (n / 4096 % 16) (Nat.mod_lt _ (by omega))
  have h2 := hexVal_hexDigitChar (n / 256 % 16) (Nat.mod_lt _ (by omega))
  have h3 := hexVal_hexDigitChar (n / 16 % 16) (Nat.mod_lt _ (by omega))
  have h4 := hexVal_hexDigitChar (n % 16) (Nat.mod_lt _ (by omega))
  simp only [hex4, h1, h2, h3, h4, Option.bind_eq_bind, Option.some_bind, pure]
  congr 1
  omega

/-- Every Lean character is a Unicode scalar value: below the surrogate
block or above it. -/
theorem char_not_surrogate (c : Char) :
    c.toNat < 0xD800 ∨ (0xDFFF < c.toNat ∧ c.toNat < 0x110000) := by
  have h := c.valid
  simp only [Char.toNat]
  rcases h with h | h
  · exact Or.inl (by omega)
  · exact Or.inr (by omega)

/-- `parseUEscape` inverts the four digits of an escape. -/
theorem parseUEscape_digits (n : Nat) (h : n < 0x10000) (l : List Char) :
    parseUEscape (uEscapeDigits n ++ l) = some (n, l) := by
  simp only [uEscapeDigits, List.cons_append, List.nil_append, parseUEscape,
    hex4_hexDigits n h]

/-- `parseEscape` decodes a single non-surrogate `\uXXXX` escape. -/
theorem parseEscape_u_single (n : Nat) (hlt : n < 0x10000)
    (hns : n < 0xD800 ∨ 0xDFFF < n) (l : List Char) :
    parseEscape ('u' :: (uEscapeDigits n ++ l)) = some (Char.ofNat n, l) := by
  have h := parseUEscape_digits n hlt l
  have hhi : ¬(0xD800 ≤ n ∧ n ≤ 0xDBFF) := by omega
  have hlo : ¬(0xDC00 ≤ n ∧ n ≤ 0xDFFF) := by omega
  simp [parseEscape, h, hhi, hlo]

/-- `parseEscape` decodes a surrogate-pair escape to one character. -/
theorem parseEscape_u_pair (n m : Nat)
    (hn : 0xD800 ≤ n ∧ n ≤ 0xDBFF) (hm : 0xDC00 ≤ m ∧ m ≤ 0xDFFF) (l : List Char) :
    parseEscape ('u' :: (uEscapeDigits n ++ ('\\' :: 'u' :: (uEscapeDigits m ++ l))))
      = some (Char.ofNat (0x10000 + (n - 0xD800) * 0x400 + (m - 0xDC00)), l) := by
  have h1 := parseUEscape_digits n (by omega) ('\\' :: 'u' :: (uEscapeDigits m ++ l))
  have h2 := parseUEscape_digits m (by omega) l
  simp [parseEscape, h1, h2, hn.1, hn.2, hm.1, hm.2]

/-- `parseEscape` decodes a short escape. -/
theorem parseEscape_short (e c2 : Char) (l : List Char)
    (hu : e ≠ 'u') (he : unescapeChar e = some c2) :
    parseEscape (e :: l) = some (c2, l) := by
  simp only [parseEscape, if_neg hu, he]

/-- The string reader at the closing quote. -/
theorem psb_quote (fuel : Nat) (l : List Char) :
    parseStringBody (fuel + 1) ('\"' :: l) = some ([], l) := by
  simp [parseStringBody]

/-- The string reader on an unescaped character. -/
theorem psb_plain (fuel : Nat) (c : Char) (l : List Char)
    (h1 : c ≠ '\"') (h2 : c ≠ '\\') :
    parseStringBody (fuel + 1) (c :: l)
      = (parseStringBody fuel l).map fun q => (c :: q.1, q.2) := by
  simp only [parseStringBody, if_neg h1, if_neg h2]

/-- The string reader on a backslash dispatches to `parseEscape`. -/
theorem psb_escape (fuel : Nat) (l : List Char) (pr : Char × List Char)
    (h : parseEscape l = some pr) :
    parseStringBody (fuel + 1) ('\\' :: l)
      = (parseStringBody fuel pr.2).map fun q => (pr.1 :: q.1, q.2) := by
  simp [parseStringBody, h]

/-- Reading the escape of any character `c` costs one unit of fuel and
prepends `c` to whatever the remaining body reads. -/
theorem parseStringBody_escapeChar (c : Char) (fuel : Nat) (l : List Char) :
    parseStringBody (fuel + 1) (escapeChar c ++ l)
      = (parseStringBody fuel l).map fun q => (c :: q.1, q.2) := by
  by_cases h1 : c = '\"'
  · subst h1
    rw [show escapeChar '\"' = ['\\', '\"'] from rfl, List.cons_append, List.cons_append,
      List.nil_append, psb_escape fuel _ ('\"', l) (parseEscape_short _ _ _ (by decide) (by decide))]
  by_cases h2 : c = '\\'
  · subst h2
    rw [show escapeChar '\\' = ['\\', '\\'] from by simp [escapeChar], List.cons_append,
      List.cons_append, List.nil_append,
      psb_escape fuel _ ('\\', l) (parseEscape_short _ _ _ (by decide) (by decide))]
  by_cases h3 : c = '\n'
  · subst h3
    rw [show escapeChar '\n' = ['\\', 'n'] from by simp [escapeChar], List.cons_append,
      List.cons_append, List.nil_append,
      psb_escape fuel _ ('\n', l) (parseEscape_short _ _ _ (by decide) (by decide))]
  by_cases h4 : c = '\r'
  · subst h4
    rw [show escapeChar '\r' = ['\\', 'r'] from by simp [escapeChar], List.cons_append,
      List.cons_append, List.nil_append,
      psb_escape fuel _ ('\r', l) (parseEscape_short _ _ _ (by decide) (by decide))]
  by_cases h5 : c = '\t'
  · subst h5
    rw [show escapeChar '\t' = ['\\', 't'] from by simp [escapeChar], List.cons_append,
      List.cons_append, List.nil_append,
      psb_escape fuel _ ('\t', l) (parseEscape_short _ _ _ (by decide) (by decide))]
  by_cases h6 : c = '\x08'
  · subst h6
    rw [show escapeChar '\x08' = ['\\', 'b'] from by simp [escapeChar], List.cons_append,
      List.cons_append, List.nil_append,
      psb_escape fuel _ ('\x08', l) (parseEscape_short _ _ _ (by decide) (by decide))]
  by_cases h7 : c = '\x0C'
  · subst h7
    rw [show escapeChar '\x0C' = ['\\', 'f'] from by simp [escapeChar], List.cons_append,
      List.cons_append, List.nil_append,
      psb_escape fuel _ ('\x0C', l) (parseEscape_short _ _ _ (by decide) (by decide))]
  have hesc : escapeChar c =
      (if c.toNat < 0x20 then uEscape c.toNat
       else if c.toNat ≤ 0x7e then [c]
       else if c.toNat < 0x10000 then uEscape c.toNat
       else uEscape (0xD800 + (c.toNat - 0x10000) / 0x400)
         ++ uEscape (0xDC00 + (c.toNat - 0x10000) % 0x400)) := by
    simp only [escapeChar, if_neg h1, if_neg h2, if_neg h3, if_neg h4, if_neg h5,
      if_neg h6, if_neg h7]
  by_cases hc1 : c.toNat < 0x20
  · rw [hesc, if_pos hc1]
    rw [show uEscape c.toNat ++ l = '\\' :: ('u' :: (uEscapeDigits c.toNat ++ l)) from by
      simp [uEscape]]
    rw [psb_escape fuel _ (Char.ofNat c.toNat, l)
      (parseEscape_u_single c.toNat (by omega) (by omega) l), Char.ofNat_toNat]
  by_cases hc2 : c.toNat ≤ 0x7e
  · rw [hesc, if_neg hc1, if_pos hc2, List.singleton_append, psb_plain fuel c l h1 h2]
  by_cases hc3 : c.toNat < 0x10000
  · have hns := char_not_surrogate c
    rw [hesc, if_neg hc1, if_neg hc2, if_pos hc3]
    rw [show uEscape c.toNat ++ l = '\\' :: ('u' :: (uEscapeDigits c.toNat ++ l)) from by
      simp [uEscape]]
    rw [psb_escape fuel _ (Char.ofNat c.toNat, l)
      (parseEscape_u_single c.toNat hc3 (by omega) l), Char.ofNat_toNat]
  · have hv := char_not_surrogate c
    rw [hesc, if_neg hc1, if_neg hc2, if_neg hc3]
    rw [show (uEscape (0xD800 + (c.toNat - 0x10000) / 0x400)
          ++ uEscape (0xDC00 + (c.toNat - 0x10000) % 0x400)) ++ l
        = '\\' :: ('u' :: (uEscapeDigits (0xD800 + (c.toNat - 0x10000) / 0x400)
            ++ ('\\' :: 'u' :: (uEscapeDigits (0xDC00 + (c.toNat - 0x10000) % 0x400) ++ l))))
      from by simp [uEscape]]
    have hhi : 0xD800 ≤ 0xD800 + (c.toNat - 0x10000) / 0x400
        ∧ 0xD800 + (c.toNat - 0x10000) / 0x400 ≤ 0xDBFF := by
      constructor
      · omega
      · omega
    have hlo : 0xDC00 ≤ 0xDC00 + (c.toNat - 0x10000) % 0x400
        ∧ 0xDC00 + (c.toNat - 0x10000) % 0x400 ≤ 0xDFFF := by
      constructor
      · omega
      · omega
    rw [psb_escape fuel _ _ (parseEscape_u_pair _ _ hhi hlo l)]
    have hco : 0x10000 + (0xD800 + (c.toNat - 0x10000) / 0x400 - 0xD800) * 0x400
        + (0xDC00 + (c.toNat - 0x10000) % 0x400 - 0xDC00) = c.toNat := by
      omega
    rw [hco, Char.ofNat_toNat]

/-- The string reader inverts `escapeString`, consuming the closing quote,
with fuel one more than the string's length. -/
theorem parseStringBody_escapeString (s : List Char) : ∀ (fuel : Nat) (l : List Char),
    parseStringBody (s.length + fuel + 1) (escapeString s ++ ('\"' :: l)) = some (s, l) := by
  induction s with
  | nil =>
    intro fuel l
    rw [show escapeString [] = [] from rfl, List.nil_append,
      show ([] : List Char).length + fuel + 1 = fuel + 1 from by simp, psb_quote]
  | cons c s ih =>
    intro fuel l
    rw [show escapeString (c :: s) = escapeChar c ++ escapeString s from rfl,
      List.append_assoc,
      show (c :: s).length + fuel + 1 = (s.length + fuel + 1) + 1 from by simp; omega,
      parseStringBody_escapeChar c _ _, ih fuel l]
    rfl

/-- The string reader inverts `escapeString` given any sufficient fuel. -/
theorem parseStringBody_escapeString_ge (s l : List Char) (fuel : Nat)
    (h : s.length + 1 ≤ fuel) :
    parseStringBody fuel (escapeString s ++ ('\"' :: l)) = some (s, l) := by
  obtain ⟨k, rfl⟩ : ∃ k, fuel = s.length + k + 1 := ⟨fuel - s.length - 1, by omega⟩
  exact parseStringBody_escapeString s k l

/-- An escape renders at least one character. -/
theorem escapeChar_length_pos (c : Char) : 1 ≤ (escapeChar c).length := by
  unfold escapeChar
  repeat' split
  all_goals simp [uEscape, uEscapeDigits]

/-- A rendered string body is at least as long as the string. -/
theorem escapeString_length_ge (s : List Char) : s.length ≤ (escapeString s).length := by
  induction s with
  | nil => simp [escapeString]
  | cons c s ih =>
    rw [show escapeString (c :: s) = escapeChar c ++ escapeString s from rfl]
    simp only [List.length_append, List.length_cons]
    have := escapeChar_length_pos c
    omega

/-! ## Serialization round trip: renderings and the reader -/

/-- Stripping an expected literal off its own rendering. -/
theorem stripLit_append (p : List Char) : ∀ cs, stripLit p (p ++ cs) = some cs := by
  induction p with
  | nil => intro cs; simp [stripLit]
  | cons c p ih => intro cs; simp [stripLit, ih]

/-- All fuel bounds are positive. -/
theorem jsize_pos (v : JValue) : 1 ≤ jsize v := by
  cases v <;> simp [jsize]

/-- The element-list fuel bound is positive. -/
theorem jsizeList_pos (xs : List JValue) : 1 ≤ jsizeList xs := by
  cases xs with
  | nil => simp [jsizeList]
  | cons x xs => simp [jsizeList]; omega

/-- The member-list fuel bound is positive. -/
theorem jsizeObj_pos (kvs : List (List Char × JValue)) : 1 ≤ jsizeObj kvs := by
  cases kvs with
  | nil => simp [jsizeObj]
  | cons kv kvs => simp [jsizeObj]; omega

/-- A rendered array is the bracketed inner rendering. -/
theorem json_dumps_val_jarr (xs : List JValue) :
    json_dumps_val (.jarr xs) = '[' :: (json_dumps_arr_inner xs ++ [']']) := by
  cases xs <;> simp [json_dumps_val, json_dumps_arr_inner]

/-- A rendered object is the braced inner rendering. -/
theorem json_dumps_val_jobj (kvs : List (List Char × JValue)) :
    json_dumps_val (.jobj kvs) = '{' :: (json_dumps_obj_inner kvs ++ ['}']) := by
  cases kvs <;> simp [json_dumps_val, json_dumps_obj_inner]

/-- Digit characters are none of the characters the reader dispatches on. -/
theorem digitChar_ne (d : Nat) (h : d < 10) :
    digitChar d ≠ 'n' ∧ digitChar d ≠ 't' ∧ digitChar d ≠ 'f' ∧ digitChar d ≠ '\"'
      ∧ digitChar d ≠ '[' ∧ digitChar d ≠ '{' ∧ isWsChar (digitChar d) = false
      ∧ digitChar d ≠ ']' ∧ digitChar d ≠ '}' ∧ digitChar d ≠ ',' := by
  interval_cases d <;> decide

/-- Every rendering starts with a character that is not whitespace and not
a closing bracket, a closing brace or a comma. -/
theorem json_dumps_head (v : JValue) :
    ∃ c l, json_dumps_val v = c :: l ∧ isWsChar c = false
      ∧ c ≠ ']' ∧ c ≠ '}' ∧ c ≠ ',' := by
  cases v with
  | jnull => exact ⟨'n', _, rfl, by decide, by decide, by decide, by decide⟩
  | jbool b =>
    cases b with
    | true => exact ⟨'t', _, rfl, by decide, by decide, by decide, by decide⟩
    | false => exact ⟨'f', _, rfl, by decide, by decide, by decide, by decide⟩
  | jint n =>
    by_cases hn : n < 0
    · exact ⟨'-', natDigits n.natAbs, by simp [json_dumps_val, intDigits, hn], by decide,
        by decide, by decide, by decide⟩
    · obtain ⟨d, l, hd, hdl⟩ := natDigits_head n.natAbs
      have hne := digitChar_ne d hdl
      exact ⟨digitChar d, l, by simp [json_dumps_val, intDigits, hn, hd],
        hne.2.2.2.2.2.2.1, hne.2.2.2.2.2.2.2.1, hne.2.2.2.2.2.2.2.2.1,
        hne.2.2.2.2.2.2.2.2.2⟩
  | jstr s => exact ⟨'\"', _, rfl, by decide, by decide, by decide, by decide⟩
  | jarr xs =>
    exact ⟨'[', _, json_dumps_val_jarr xs, by decide, by decide, by decide, by decide⟩
  | jobj kvs =>
    exact ⟨'{', _, json_dumps_val_jobj kvs, by decide, by decide, by decide, by decide⟩

/-- Leading-whitespace stripping is transparent before a rendering. -/
theorem skipWs_dumps (v : JValue) (rest : List Char) :
    skipWs (json_dumps_val v ++ rest) = json_dumps_val v ++ rest := by
  obtain ⟨c, l, hd, hws, -, -, -⟩ := json_dumps_head v
  rw [hd]
  simp [skipWs, hws]

/-- What follows an array element never extends a numeric literal. -/
theorem numPostOk_arr (xs : List JValue) (rest : List Char) :
    numPostOk (json_dumps_arr xs ++ (']' :: rest)) = true := by
  cases xs <;> simp [json_dumps_arr, numPostOk, isJDigit]

/-- Leading-whitespace stripping is transparent after an array element. -/
theorem skipWs_arr (xs : List JValue) (rest : List Char) :
    skipWs (json_dumps_arr xs ++ (']' :: rest)) = json_dumps_arr xs ++ (']' :: rest) := by
  cases xs <;> simp [json_dumps_arr, skipWs, isWsChar]

/-- What follows an object member never extends a numeric literal. -/
theorem numPostOk_obj (kvs : List (List Char × JValue)) (rest : List Char) :
    numPostOk (json_dumps_obj kvs ++ ('}' :: rest)) = true := by
  cases kvs <;> simp [json_dumps_obj, numPostOk, isJDigit]

/-- Leading-whitespace stripping is transparent after an object member. -/
theorem skipWs_obj (kvs : List (List Char × JValue)) (rest : List Char) :
    skipWs (json_dumps_obj kvs ++ ('}' :: rest)) = json_dumps_obj kvs ++ ('}' :: rest) := by
  cases kvs <;> simp [json_dumps_obj, skipWs, isWsChar]

/-- The member rendering, without destructuring the pair. -/
theorem json_dumps_pair_def (kv : List Char × JValue) :
    json_dumps_pair kv
      = '\"' :: (escapeString kv.1 ++ ('\"' :: ':' :: ' ' :: json_dumps_val kv.2)) := by
  obtain ⟨k, v⟩ := kv
  rfl

/-- The member fuel bound, without destructuring the pair. -/
theorem jsizePair_eq (kv : List Char × JValue) : jsizePair kv = 1 + jsize kv.2 := by
  obtain ⟨k, v⟩ := kv
  rfl

/-- The reader on `[`. -/
theorem parseValue_step_arr (fuel : Nat) (l : List Char) :
    parseValue (fuel + 1) ('[' :: l) =
      (match parseArrayStart fuel (skipWs l) with
       | none => none
       | some pr => some (.jarr pr.1, pr.2)) := by
  simp [parseValue]

/-- The reader on `{`. -/
theorem parseValue_step_obj (fuel : Nat) (l : List Char) :
    parseValue (fuel + 1) ('{' :: l) =
      (match parseObjStart fuel (skipWs l) with
       | none => none
       | some pr => some (.jobj pr.1, pr.2)) := by
  simp [parseValue]

/-- The reader on a string literal. -/
theorem parseValue_step_str (fuel : Nat) (l : List Char) :
    parseValue (fuel + 1) ('\"' :: l) =
      (match parseStringBody l.length l with
       | none => none
       | some pr => some (.jstr pr.1, pr.2)) := by
  simp [parseValue]

/-- The reader falls through to the number branch. -/
theorem parseValue_step_number (fuel : Nat) (cs : List Char) (c : Char) (l : List Char)
    (hcs : cs = c :: l) (h1 : c ≠ 'n') (h2 : c ≠ 't') (h3 : c ≠ 'f')
    (h4 : c ≠ '\"') (h5 : c ≠ '[') (h6 : c ≠ '{') :
    parseValue (fuel + 1) cs = (parseNumber cs).map fun pr => (.jint pr.1, pr.2) := by
  subst hcs
  simp [parseValue, h1, h2, h3, h4, h5, h6]

/-- The array reader when the content is not an immediate `]`. -/
theorem parseArrayStart_step (fuel : Nat) (cs : List Char) (c : Char) (l : List Char)
    (hcs : cs = c :: l) (hne : c ≠ ']') :
    parseArrayStart (fuel + 1) cs =
      (match parseValue fuel cs with
       | none => none
       | some pr =>
         match parseArrayTail fuel (skipWs pr.2) with
         | none => none
         | some pr2 => some (pr.1 :: pr2.1, pr2.2)) := by
  subst hcs
  simp [parseArrayStart, hne]

/-- The array reader at the closing bracket. -/
theorem parseArrayTail_close (fuel : Nat) (rest : List Char) :
    parseArrayTail (fuel + 1) (']' :: rest) = some ([], rest) := by
  simp [parseArrayTail]

/-- The array reader at a separating comma. -/
theorem parseArrayTail_comma (fuel : Nat) (l : List Char) :
    parseArrayTail (fuel + 1) (',' :: l) =
      (match parseValue fuel (skipWs l) with
       | none => none
       | some pr =>
         match parseArrayTail fuel (skipWs pr.2) with
         | none => none
         | some pr2 => some (pr.1 :: pr2.1, pr2.2)) := by
  simp [parseArrayTail]

/-- The member reader on its opening quote. -/
theorem parsePair_step (fuel : Nat) (l : List Char) :
    parsePair (fuel + 1) ('\"' :: l) =
      (match parseStringBody l.length l with
       | none => none
       | some pr =>
         match skipWs pr.2 with
         | [] => none
         | c2 :: r2 =>
           if c2 = ':' then
             match parseValue fuel (skipWs r2) with
             | none => none
             | some pr2 => some ((pr.1, pr2.1), pr2.2)
           else none) := by
  simp [parsePair]

/-- The object reader when the content is not an immediate `}`. -/
theorem parseObjStart_step (fuel : Nat) (cs : List Char) (c : Char) (l : List Char)
    (hcs : cs = c :: l) (hne : c ≠ '}') :
    parseObjStart (fuel + 1) cs =
      (match parsePair fuel cs with
       | none => none
       | some pr =>
         match parseObjTail fuel (skipWs pr.2) with
         | none => none
         | some pr2 => some (pr.1 :: pr2.1, pr2.2)) := by
  subst hcs
  simp [parseObjStart, hne]

/-- The object reader at the closing brace. -/
theorem parseObjTail_close (fuel : Nat) (rest : List Char) :
    parseObjTail (fuel + 1) ('}' :: rest) = some ([], rest) := by
  simp [parseObjTail]

/-- The object reader at a separating comma. -/
theorem parseObjTail_comma (fuel : Nat) (l : List Char) :
    parseObjTail (fuel + 1) (',' :: l) =
      (match parsePair fuel (skipWs l) with
       | none => none
       | some pr =>
         match parseObjTail fuel (skipWs pr.2) with
         | none => none
         | some pr2 => some (pr.1 :: pr2.1, pr2.2)) := by
  simp [parseObjTail]

mutual

/-- The JSON reader inverts the renderer on any value, given fuel at least
the value's nesting bound and a following context that cannot extend a
numeric literal. -/
theorem parseValue_dumps (v : JValue) : ∀ (fuel : Nat) (rest : List Char),
    jsize v ≤ fuel → numPostOk rest = true →
    parseValue fuel (json_dumps_val v ++ rest) = some (v, rest) := by
  intro fuel rest hfuel hpost
  obtain ⟨f, rfl⟩ : ∃ f, fuel = f + 1 := ⟨fuel - 1, by have := jsize_pos v; omega⟩
  cases v with
  | jnull => simp [json_dumps_val, parseValue, stripLit]
  | jbool b =>
    cases b with
    | true => simp [json_dumps_val, parseValue, stripLit]
    | false => simp [json_dumps_val, parseValue, stripLit]
  | jint n =>
    have hnum := parseNumber_intDigits n rest hpost
    by_cases hn : n < 0
    · have hd : json_dumps_val (.jint n) ++ rest = '-' :: (natDigits n.natAbs ++ rest) := by
        simp [json_dumps_val, intDigits, hn]
      rw [parseValue_step_number f _ '-' (natDigits n.natAbs ++ rest) hd (by decide)
        (by decide) (by decide) (by decide) (by decide) (by decide)]
      simp [json_dumps_val, hnum]
    · obtain ⟨d, dl, hdd, hdl⟩ := natDigits_head n.natAbs
      have hne := digitChar_ne d hdl
      have hd : json_dumps_val (.jint n) ++ rest = digitChar d :: (dl ++ rest) := by
        simp [json_dumps_val, intDigits, hn, hdd]
      rw [parseValue_step_number f _ (digitChar d) (dl ++ rest) hd hne.1 hne.2.1
        hne.2.2.1 hne.2.2.2.1 hne.2.2.2.2.1 hne.2.2.2.2.2.1]
      simp [json_dumps_val, hnum]
  | jstr s =>
    have hd : json_dumps_val (.jstr s) ++ rest
        = '\"' :: (escapeString s ++ ('\"' :: rest)) := by
      simp [json_dumps_val]
    rw [hd, parseValue_step_str]
    have hlen : s.length + 1 ≤ (escapeString s ++ ('\"' :: rest)).length := by
      have := escapeString_length_ge s
      simp only [List.length_append, List.length_cons]
      omega
    rw [parseStringBody_escapeString_ge s rest _ hlen]
  | jarr xs =>
    have hd : json_dumps_val (.jarr xs) ++ rest
        = '[' :: (json_dumps_arr_inner xs ++ (']' :: rest)) := by
      rw [json_dumps_val_jarr]
      simp
    rw [hd, parseValue_step_arr]
    have hsw : skipWs (json_dumps_arr_inner xs ++ (']' :: rest))
        = json_dumps_arr_inner xs ++ (']' :: rest) := by
      cases xs with
      | nil => simp [json_dumps_arr_inner, skipWs, isWsChar]
      | cons x xs' =>
        simp only [json_dumps_arr_inner, List.append_assoc]
        exact skipWs_dumps x _
    rw [hsw, parseArrayStart_dumps xs f rest (by simp [jsize] at hfuel; omega)]
  | jobj kvs =>
    have hd : json_dumps_val (.jobj kvs) ++ rest
        = '{' :: (json_dumps_obj_inner kvs ++ ('}' :: rest)) := by
      rw [json_dumps_val_jobj]
      simp
    rw [hd, parseValue_step_obj]
    have hsw : skipWs (json_dumps_obj_inner kvs ++ ('}' :: rest))
        = json_dumps_obj_inner kvs ++ ('}' :: rest) := by
      cases kvs with
      | nil => simp [json_dumps_obj_inner, skipWs, isWsChar]
      | cons kv kvs' =>
        simp [json_dumps_obj_inner, json_dumps_pair_def, List.append_assoc, skipWs, isWsChar]
    rw [hsw, parseObjStart_dumps kvs f rest (by simp [jsize] at hfuel; omega)]
termination_by sizeOf v

/-- The array reader inverts the renderer on an array's bracketed content. -/
theorem parseArrayStart_dumps (xs : List JValue) : ∀ (fuel : Nat) (rest : List Char),
    jsizeList xs ≤ fuel →
    parseArrayStart fuel (json_dumps_arr_inner xs ++ (']' :: rest)) = some (xs, rest) := by
  intro fuel rest hfuel
  obtain ⟨f, rfl⟩ : ∃ f, fuel = f + 1 := ⟨fuel - 1, by have := jsizeList_pos xs; omega⟩
  cases xs with
  | nil => simp [json_dumps_arr_inner, parseArrayStart]
  | cons x xs' =>
    obtain ⟨c, l, hdx, hws, hbr, -, -⟩ := json_dumps_head x
    have hpos1 := jsize_pos x
    have hpos2 := jsizeList_pos xs'
    have hsz : jsize x ≤ f ∧ jsizeList xs' ≤ f := by
      simp [jsizeList] at hfuel
      omega
    have hshape : json_dumps_arr_inner (x :: xs') ++ (']' :: rest)
        = json_dumps_val x ++ (json_dumps_arr xs' ++ (']' :: rest)) := by
      simp [json_dumps_arr_inner]
    have hcs : json_dumps_arr_inner (x :: xs') ++ (']' :: rest)
        = c :: (l ++ (json_dumps_arr xs' ++ (']' :: rest))) := by
      rw [hshape, hdx]
      simp
    rw [parseArrayStart_step f _ c _ hcs hbr, hshape,
      parseValue_dumps x f (json_dumps_arr xs' ++ (']' :: rest)) hsz.1
        (numPostOk_arr xs' rest)]
    rw [hshape] at hcs
    simp only [skipWs_arr xs' rest,
      parseArrayTail_dumps xs' f rest hsz.2]
termination_by sizeOf xs

/-- The array reader inverts the renderer on an element tail. -/
theorem parseArrayTail_dumps (xs : List JValue) : ∀ (fuel : Nat) (rest : List Char),
    jsizeList xs ≤ fuel →
    parseArrayTail fuel (json_dumps_arr xs ++ (']' :: rest)) = some (xs, rest) := by
  intro fuel rest hfuel
  obtain ⟨f, rfl⟩ : ∃ f, fuel = f + 1 := ⟨fuel - 1, by have := jsizeList_pos xs; omega⟩
  cases xs with
  | nil => simp [json_dumps_arr, parseArrayTail_close]
  | cons x xs' =>
    have hpos1 := jsize_pos x
    have hpos2 := jsizeList_pos xs'
    have hsz : jsize x ≤ f ∧ jsizeList xs' ≤ f := by
      simp [jsizeList] at hfuel
      omega
    have hshape : json_dumps_arr (x :: xs') ++ (']' :: rest)
        = ',' :: (' ' :: (json_dumps_val x ++ (json_dumps_arr xs' ++ (']' :: rest)))) := by
      simp [json_dumps_arr]
    rw [hshape, parseArrayTail_comma]
    have hskip : skipWs (' ' :: (json_dumps_val x ++ (json_dumps_arr xs' ++ (']' :: rest))))
        = json_dumps_val x ++ (json_dumps_arr xs' ++ (']' :: rest)) := by
      rw [show skipWs (' ' :: (json_dumps_val x ++ (json_dumps_arr xs' ++ (']' :: rest))))
          = skipWs (json_dumps_val x ++ (json_dumps_arr xs' ++ (']' :: rest))) from by
        simp [skipWs, isWsChar]]
      exact skipWs_dumps x _
    rw [hskip,
      parseValue_dumps x f (json_dumps_arr xs' ++ (']' :: rest)) hsz.1
        (numPostOk_arr xs' rest)]
    simp only [skipWs_arr xs' rest, parseArrayTail_dumps xs' f rest hsz.2]
termination_by sizeOf xs

/-- The member reader inverts the renderer on one `"key": value` member. -/
theorem parsePair_dumps (kv : List Char × JValue) : ∀ (fuel : Nat) (rest : List Char),
    jsizePair kv ≤ fuel → numPostOk rest = true →
    parsePair fuel (json_dumps_pair kv ++ rest) = some (kv, rest) := by
  intro fuel rest hfuel hpost
  rw [jsizePair_eq] at hfuel
  obtain ⟨f, rfl⟩ : ∃ f, fuel = f + 1 :=
    ⟨fuel - 1, by have := jsize_pos kv.2; omega⟩
  have hshape : json_dumps_pair kv ++ rest
      = '\"' :: (escapeString kv.1
          ++ ('\"' :: (':' :: ' ' :: (json_dumps_val kv.2 ++ rest)))) := by
    rw [json_dumps_pair_def]
    simp
  rw [hshape, parsePair_step]
  have hlen : kv.1.length + 1
      ≤ (escapeString kv.1
          ++ ('\"' :: (':' :: ' ' :: (json_dumps_val kv.2 ++ rest)))).length := by
    have := escapeString_length_ge kv.1
    simp only [List.length_append, List.length_cons]
    omega
  rw [parseStringBody_escapeString_ge kv.1 _ _ hlen]
  have hskipcolon : skipWs (':' :: ' ' :: (json_dumps_val kv.2 ++ rest))
      = ':' :: (' ' :: (json_dumps_val kv.2 ++ rest)) := by
    simp [skipWs, isWsChar]
  have hskipsp : skipWs (' ' :: (json_dumps_val kv.2 ++ rest))
      = json_dumps_val kv.2 ++ rest := by
    rw [show skipWs (' ' :: (json_dumps_val kv.2 ++ rest))
        = skipWs (json_dumps_val kv.2 ++ rest) from by simp [skipWs, isWsChar]]
    exact skipWs_dumps kv.2 _
  simp only [hskipcolon, if_true]
  rw [hskipsp, parseValue_dumps kv.2 f rest (by omega) hpost]
termination_by sizeOf kv
decreasing_by
  obtain ⟨k, v⟩ := kv
  simp_wf
  try omega

/-- The object reader inverts the renderer on an object's braced content. -/
theorem parseObjStart_dumps (kvs : List (List Char × JValue)) :
    ∀ (fuel : Nat) (rest : List Char),
    jsizeObj kvs ≤ fuel →
    parseObjStart fuel (json_dumps_obj_inner kvs ++ ('}' :: rest)) = some (kvs, rest) := by
  intro fuel rest hfuel
  obtain ⟨f, rfl⟩ : ∃ f, fuel = f + 1 := ⟨fuel - 1, by have := jsizeObj_pos kvs; omega⟩
  cases kvs with
  | nil => simp [json_dumps_obj_inner, parseObjStart]
  | cons kv kvs' =>
    have hpos2 := jsizeObj_pos kvs'
    have hpos1 : 1 ≤ jsizePair kv := by rw [jsizePair_eq]; omega
    have hsz : jsizePair kv ≤ f ∧ jsizeObj kvs' ≤ f := by
      simp [jsizeObj] at hfuel
      omega
    have hshape : json_dumps_obj_inner (kv :: kvs') ++ ('}' :: rest)
        = json_dumps_pair kv ++ (json_dumps_obj kvs' ++ ('}' :: rest)) := by
      simp [json_dumps_obj_inner]
    have hcs : json_dumps_obj_inner (kv :: kvs') ++ ('}' :: rest)
        = '\"' :: (escapeString kv.1
            ++ ('\"' :: (':' :: ' ' :: (json_dumps_val kv.2
              ++ (json_dumps_obj kvs' ++ ('}' :: rest)))))) := by
      rw [hshape]
      simp [json_dumps_pair_def]
    rw [parseObjStart_step f _ '\"' _ hcs (by decide), hshape,
      parsePair_dumps kv f (json_dumps_obj kvs' ++ ('}' :: rest)) hsz.1
        (numPostOk_obj kvs' rest)]
    simp only [skipWs_obj kvs' rest, parseObjTail_dumps kvs' f rest hsz.2]
termination_by sizeOf kvs

/-- The object reader inverts the renderer on a member tail. -/
theorem parseObjTail_dumps (kvs : List (List Char × JValue)) :
    ∀ (fuel : Nat) (rest : List Char),
    jsizeObj kvs ≤ fuel →
    parseObjTail fuel (json_dumps_obj kvs ++ ('}' :: rest)) = some (kvs, rest) := by
  intro fuel rest hfuel
  obtain ⟨f, rfl⟩ : ∃ f, fuel = f + 1 := ⟨fuel - 1, by have := jsizeObj_pos kvs; omega⟩
  cases kvs with
  | nil => simp [json_dumps_obj, parseObjTail_close]
  | cons kv kvs' =>
    have hpos2 := jsizeObj_pos kvs'
    have hpos1 : 1 ≤ jsizePair kv := by rw [jsizePair_eq]; omega
    have hsz : jsizePair kv ≤ f ∧ jsizeObj kvs' ≤ f := by
      simp [jsizeObj] at hfuel
      omega
    have hshape : json_dumps_obj (kv :: kvs') ++ ('}' :: rest)
        = ',' :: (' ' :: (json_dumps_pair kv ++ (json_dumps_obj kvs' ++ ('}' :: rest)))) := by
      simp [json_dumps_obj]
    rw [hshape, parseObjTail_comma]
    have hskip : skipWs (' ' :: (json_dumps_pair kv ++ (json_dumps_obj kvs' ++ ('}' :: rest))))
        = json_dumps_pair kv ++ (json_dumps_obj kvs' ++ ('}' :: rest)) := by
      rw [show skipWs (' ' :: (json_dumps_pair kv ++ (json_dumps_obj kvs' ++ ('}' :: rest))))
          = skipWs (json_dumps_pair kv ++ (json_dumps_obj kvs' ++ ('}' :: rest))) from by
        simp [skipWs, isWsChar]]
      rw [show json_dumps_pair kv ++ (json_dumps_obj kvs' ++ ('}' :: rest))
          = '\"' :: (escapeString kv.1 ++ ('\"' :: (':' :: ' ' :: (json_dumps_val kv.2
              ++ (json_dumps_obj kvs' ++ ('}' :: rest)))))) from by simp [json_dumps_pair_def]]
      simp [skipWs, isWsChar]
    rw [hskip,
      parsePair_dumps kv f (json_dumps_obj kvs' ++ ('}' :: rest)) hsz.1
        (numPostOk_obj kvs' rest)]
    simp only [skipWs_obj kvs' rest, parseObjTail_dumps kvs' f rest hsz.2]
termination_by sizeOf kvs

end

mutual

/-- The fuel bound of a value is covered by twice its rendering's length. -/
theorem jsize_le_dumps (v : JValue) : jsize v ≤ 2 * (json_dumps_val v).length := by
  cases v with
  | jnull => simp [jsize, json_dumps_val]
  | jbool b => cases b <;> simp [jsize, json_dumps_val]
  | jint n =>
    have h : json_dumps_val (.jint n) ≠ [] := by
      by_cases hn : n < 0 <;>
        simp [json_dumps_val, intDigits, hn, natDigits_ne_nil]
    have : 1 ≤ (json_dumps_val (.jint n)).length := by
      cases hl : json_dumps_val (.jint n) with
      | nil => exact absurd hl h
      | cons c l => simp
    simp [jsize]
    omega
  | jstr s => simp [jsize, json_dumps_val]; omega
  | jarr xs =>
    cases xs with
    | nil => simp [jsize, jsizeList, json_dumps_val]
    | cons x xs' =>
      have h1 := jsize_le_dumps x
      have h2 := jsizeList_le_dumps xs'
      simp only [jsize, jsizeList, json_dumps_val, List.length_cons, List.length_append]
      omega
  | jobj kvs =>
    cases kvs with
    | nil => simp [jsize, jsizeObj, json_dumps_val]
    | cons kv kvs' =>
      have h1 := jsizePair_le_dumps kv
      have h2 := jsizeObj_le_dumps kvs'
      simp only [jsize, jsizeObj, json_dumps_val, List.length_cons, List.length_append]
      omega

/-- The fuel bound of a member. -/
theorem jsizePair_le_dumps (kv : List Char × JValue) :
    jsizePair kv ≤ 2 * (json_dumps_pair kv).length := by
  have h := jsize_le_dumps kv.2
  rw [jsizePair_eq, json_dumps_pair_def]
  simp only [List.length_cons, List.length_append]
  omega

/-- The fuel bound of an element tail. -/
theorem jsizeList_le_dumps (xs : List JValue) :
    jsizeList xs ≤ 2 * (json_dumps_arr xs).length + 2 := by
  cases xs with
  | nil => simp [jsizeList, json_dumps_arr]
  | cons x xs' =>
    have h1 := jsize_le_dumps x
    have h2 := jsizeList_le_dumps xs'
    simp only [jsizeList, json_dumps_arr, List.length_cons, List.length_append]
    omega

/-- The fuel bound of a member tail. -/
theorem jsizeObj_le_dumps (kvs : List (List Char × JValue)) :
    jsizeObj kvs ≤ 2 * (json_dumps_obj kvs).length + 2 := by
  cases kvs with
  | nil => simp [jsizeObj, json_dumps_obj]
  | cons kv kvs' =>
    have h1 := jsizePair_le_dumps kv
    have h2 := jsizeObj_le_dumps kvs'
    simp only [jsizeObj, json_dumps_obj, List.length_cons, List.length_append]
    omega

end

/-- `json.loads` inverts `json.dumps` on every embedded value. -/
theorem json_loads_dumps (v : JValue) : json_loads (json_dumps_val v) = some v := by
  have hsw : skipWs (json_dumps_val v) = json_dumps_val v := by
    have := skipWs_dumps v []
    simpa using this
  have hfuel : jsize v ≤ 2 * (json_dumps_val v).length + 2 := by
    have := jsize_le_dumps v
    omega
  have hp : parseValue (2 * (json_dumps_val v).length + 2) (json_dumps_val v ++ [])
      = some (v, []) := parseValue_dumps v _ [] hfuel rfl
  rw [List.append_nil] at hp
  simp [json_loads, hsw, hp, skipWs]

/-! ## Serialization round trip: the binary (pickle) encoding -/

/-- The number reader inverts the base-255 encoding. -/
theorem decNat_encNat (n : Nat) : ∀ rest, decNat (encNat n ++ rest) = some (n, rest) := by
  induction n using Nat.strong_induction_on with
  | _ n ih =>
    intro rest
    by_cases h : n < 255
    · rw [encNat, if_pos h]
      simp [decNat, Nat.ne_of_lt h]
    · rw [encNat, if_neg h]
      have hmod : ¬(n % 255 = 255) := by omega
      have hrec := ih (n / 255) (Nat.div_lt_self (by omega) (by omega)) rest
      have hsum : n % 255 + 255 * (n / 255) = n := by omega
      simp [decNat, hmod, hrec, hsum]

/-- The string reader inverts the sentinel-terminated encoding. -/
theorem decStr_encStr (s : List Char) : ∀ rest, decStr (encStr s ++ rest) = some (s, rest) := by
  induction s with
  | nil => intro rest; simp [encStr, decStr]
  | cons c s ih =>
    intro rest
    have hlt : c.toNat ≠ 0x110000 := by
      have := char_not_surrogate c
      omega
    have hshape : encStr (c :: s) ++ rest = c.toNat :: (encStr s ++ rest) := by
      simp [encStr]
    rw [hshape]
    simp [decStr, hlt, ih rest, Char.ofNat_toNat]

/-- All binary fuel bounds are positive. -/
theorem psize_pos (v : JValue) : 1 ≤ psize v := by
  cases v <;> simp [psize]

/-- The element-tail binary fuel bound is positive. -/
theorem psizeList_pos (xs : List JValue) : 1 ≤ psizeList xs := by
  cases xs with
  | nil => simp [psizeList]
  | cons x xs => simp [psizeList]; omega

/-- The entry-tail binary fuel bound is positive. -/
theorem psizeObj_pos (kvs : List (List Char × JValue)) : 1 ≤ psizeObj kvs := by
  cases kvs with
  | nil => simp [psizeObj]
  | cons kv kvs => simp [psizeObj]; omega

/-- An encoded value starts with a tag distinct from the end marker and
the entry marker. -/
theorem pickle_dumps_head (v : JValue) :
    ∃ t l, pickle_dumps_val v = t :: l ∧ t ≠ 6 ∧ t ≠ 7 := by
  cases v with
  | jnull => exact ⟨0, _, rfl, by decide, by decide⟩
  | jbool b => exact ⟨1, _, rfl, by decide, by decide⟩
  | jint n => exact ⟨2, _, rfl, by decide, by decide⟩
  | jstr s => exact ⟨3, _, rfl, by decide, by decide⟩
  | jarr xs => exact ⟨4, _, rfl, by decide, by decide⟩
  | jobj kvs => exact ⟨5, _, rfl, by decide, by decide⟩

/-- The binary reader on the null tag. -/
theorem parsePickle_step_null (fuel : Nat) (rest : List Nat) :
    parsePickle (fuel + 1) (0 :: rest) = some (.jnull, rest) := by
  simp [parsePickle]

/-- The binary reader on the bool tag. -/
theorem parsePickle_step_bool (fuel : Nat) (b : Nat) (rest : List Nat) :
    parsePickle (fuel + 1) (1 :: b :: rest) = some (.jbool (decide (b = 1)), rest) := by
  simp [parsePickle]

/-- The binary reader on the int tag. -/
theorem parsePickle_step_int (fuel : Nat) (s : Nat) (r : List Nat) :
    parsePickle (fuel + 1) (2 :: s :: r) =
      (match decNat r with
       | none => none
       | some pr => some (.jint (if s = 1 then -(pr.1 : Int) else (pr.1 : Int)), pr.2)) := by
  simp [parsePickle]

/-- The binary reader on the string tag. -/
theorem parsePickle_step_str (fuel : Nat) (rest : List Nat) :
    parsePickle (fuel + 1) (3 :: rest) =
      (match decStr rest with
       | none => none
       | some pr => some (.jstr pr.1, pr.2)) := by
  simp [parsePickle]

/-- The binary reader on the list tag. -/
theorem parsePickle_step_arr (fuel : Nat) (rest : List Nat) :
    parsePickle (fuel + 1) (4 :: rest) =
      (match parsePickleList fuel rest with
       | none => none
       | some pr => some (.jarr pr.1, pr.2)) := by
  simp [parsePickle]

/-- The binary reader on the dict tag. -/
theorem parsePickle_step_obj (fuel : Nat) (rest : List Nat) :
    parsePickle (fuel + 1) (5 :: rest) =
      (match parsePickleObj fuel rest with
       | none => none
       | some pr => some (.jobj pr.1, pr.2)) := by
  simp [parsePickle]

/-- The binary list reader at the end marker. -/
theorem parsePickleList_close (fuel : Nat) (rest : List Nat) :
    parsePickleList (fuel + 1) (6 :: rest) = some ([], rest) := by
  simp [parsePickleList]

/-- The binary list reader on an element. -/
theorem parsePickleList_step (fuel : Nat) (cs : List Nat) (t : Nat) (l : List Nat)
    (hcs : cs = t :: l) (hne : t ≠ 6) :
    parsePickleList (fuel + 1) cs =
      (match parsePickle fuel cs with
       | none => none
       | some pr =>
         match parsePickleList fuel pr.2 with
         | none => none
         | some pr2 => some (pr.1 :: pr2.1, pr2.2)) := by
  subst hcs
  simp [parsePickleList, hne]

/-- The binary dict reader at the end marker. -/
theorem parsePickleObj_close (fuel : Nat) (rest : List Nat) :
    parsePickleObj (fuel + 1) (6 :: rest) = some ([], rest) := by
  simp [parsePickleObj]

/-- The binary dict reader on an entry marker. -/
theorem parsePickleObj_step (fuel : Nat) (rest : List Nat) :
    parsePickleObj (fuel + 1) (7 :: rest) =
      (match decStr rest with
       | none => none
       | some pr =>
         match parsePickle fuel pr.2 with
         | none => none
         | some pr2 =>
           match parsePickleObj fuel pr2.2 with
           | none => none
           | some pr3 => some ((pr.1, pr2.1) :: pr3.1, pr3.2)) := by
  simp [parsePickleObj]

mutual

/-- The binary reader inverts the binary renderer on any value. -/
theorem parsePickle_dumps (v : JValue) : ∀ (fuel : Nat) (rest : List Nat),
    psize v ≤ fuel →
    parsePickle fuel (pickle_dumps_val v ++ rest) = some (v, rest) := by
  intro fuel rest hfuel
  obtain ⟨f, rfl⟩ : ∃ f, fuel = f + 1 := ⟨fuel - 1, by have := psize_pos v; omega⟩
  cases v with
  | jnull => simpa [pickle_dumps_val] using parsePickle_step_null f rest
  | jbool b =>
    cases b with
    | true => simp [pickle_dumps_val, parsePickle_step_bool]
    | false => simp [pickle_dumps_val, parsePickle_step_bool]
  | jint n =>
    have hdec := decNat_encNat n.natAbs rest
    by_cases hn : n < 0
    · have hshape : pickle_dumps_val (.jint n) ++ rest
          = 2 :: 1 :: (encNat n.natAbs ++ rest) := by
        simp [pickle_dumps_val, hn]
      rw [hshape, parsePickle_step_int, hdec]
      simp [-Int.natCast_natAbs]
      omega
    · have hshape : pickle_dumps_val (.jint n) ++ rest
          = 2 :: 0 :: (encNat n.natAbs ++ rest) := by
        simp [pickle_dumps_val, hn]
      rw [hshape, parsePickle_step_int, hdec]
      simp [-Int.natCast_natAbs]
      omega
  | jstr s =>
    have hshape : pickle_dumps_val (.jstr s) ++ rest = 3 :: (encStr s ++ rest) := by
      simp [pickle_dumps_val]
    rw [hshape, parsePickle_step_str, decStr_encStr s rest]
  | jarr xs =>
    have hshape : pickle_dumps_val (.jarr xs) ++ rest
        = 4 :: (pickle_dumps_list xs ++ (6 :: rest)) := by
      simp [pickle_dumps_val]
    rw [hshape, parsePickle_step_arr,
      parsePickleList_dumps xs f rest (by simp [psize] at hfuel; omega)]
  | jobj kvs =>
    have hshape : pickle_dumps_val (.jobj kvs) ++ rest
        = 5 :: (pickle_dumps_obj kvs ++ (6 :: rest)) := by
      simp [pickle_dumps_val]
    rw [hshape, parsePickle_step_obj,
      parsePickleObj_dumps kvs f rest (by simp [psize] at hfuel; omega)]
termination_by sizeOf v

/-- The binary list reader inverts the renderer on an element sequence. -/
theorem parsePickleList_dumps (xs : List JValue) : ∀ (fuel : Nat) (rest : List Nat),
    psizeList xs ≤ fuel →
    parsePickleList fuel (pickle_dumps_list xs ++ (6 :: rest)) = some (xs, rest) := by
  intro fuel rest hfuel
  obtain ⟨f, rfl⟩ : ∃ f, fuel = f + 1 := ⟨fuel - 1, by have := psizeList_pos xs; omega⟩
  cases xs with
  | nil => simp [pickle_dumps_list, parsePickleList_close]
  | cons x xs' =>
    obtain ⟨t, l, hdx, ht6, -⟩ := pickle_dumps_head x
    have hpos1 := psize_pos x
    have hpos2 := psizeList_pos xs'
    have hsz : psize x ≤ f ∧ psizeList xs' ≤ f := by
      simp [psizeList] at hfuel
      omega
    have hshape : pickle_dumps_list (x :: xs') ++ (6 :: rest)
        = pickle_dumps_val x ++ (pickle_dumps_list xs' ++ (6 :: rest)) := by
      simp [pickle_dumps_list]
    have hcs : pickle_dumps_list (x :: xs') ++ (6 :: rest)
        = t :: (l ++ (pickle_dumps_list xs' ++ (6 :: rest))) := by
      rw [hshape, hdx]
      simp
    rw [parsePickleList_step f _ t _ hcs ht6, hshape,
      parsePickle_dumps x f (pickle_dumps_list xs' ++ (6 :: rest)) hsz.1]
    simp only [parsePickleList_dumps xs' f rest hsz.2]
termination_by sizeOf xs

/-- The binary dict reader inverts the renderer on an entry sequence. -/
theorem parsePickleObj_dumps (kvs : List (List Char × JValue)) :
    ∀ (fuel : Nat) (rest : List Nat),
    psizeObj kvs ≤ fuel →
    parsePickleObj fuel (pickle_dumps_obj kvs ++ (6 :: rest)) = some (kvs, rest) := by
  intro fuel rest hfuel
  obtain ⟨f, rfl⟩ : ∃ f, fuel = f + 1 := ⟨fuel - 1, by have := psizeObj_pos kvs; omega⟩
  cases kvs with
  | nil => simp [pickle_dumps_obj, parsePickleObj_close]
  | cons kv kvs' =>
    have hpos1 := psize_pos kv.2
    have hpos2 := psizeObj_pos kvs'
    have hsz : psize kv.2 ≤ f ∧ psizeObj kvs' ≤ f := by
      simp [psizeObj] at hfuel
      omega
    have hshape : pickle_dumps_obj (kv :: kvs') ++ (6 :: rest)
        = 7 :: (encStr kv.1
            ++ (pickle_dumps_val kv.2 ++ (pickle_dumps_obj kvs' ++ (6 :: rest)))) := by
      simp [pickle_dumps_obj]
    rw [hshape, parsePickleObj_step, decStr_encStr kv.1 _]
    simp only [parsePickle_dumps kv.2 f (pickle_dumps_obj kvs' ++ (6 :: rest)) hsz.1]
    simp only [parsePickleObj_dumps kvs' f rest hsz.2]
termination_by sizeOf kvs
decreasing_by
  all_goals subst_vars
  all_goals obtain ⟨k, v⟩ := kv
  all_goals simp_wf
  all_goals try omega

end

mutual

/-- The binary fuel bound of a value is covered by four times its
encoding's length. -/
theorem psize_le_pickle (v : JValue) : psize v + 1 ≤ 4 * (pickle_dumps_val v).length := by
  cases v with
  | jnull => simp [psize, pickle_dumps_val]
  | jbool b => simp [psize, pickle_dumps_val]
  | jint n => simp [psize, pickle_dumps_val]; omega
  | jstr s => simp [psize, pickle_dumps_val, encStr]; omega
  | jarr xs =>
    have h := psizeList_le_pickle xs
    simp only [psize, pickle_dumps_val, List.length_cons, List.length_append]
    omega
  | jobj kvs =>
    have h := psizeObj_le_pickle kvs
    simp only [psize, pickle_dumps_val, List.length_cons, List.length_append]
    omega
termination_by sizeOf v

/-- The binary fuel bound of an element sequence. -/
theorem psizeList_le_pickle (xs : List JValue) :
    psizeList xs ≤ 4 * (pickle_dumps_list xs).length + 1 := by
  cases xs with
  | nil => simp [psizeList, pickle_dumps_list]
  | cons x xs' =>
    have h1 := psize_le_pickle x
    have h2 := psizeList_le_pickle xs'
    simp only [psizeList, pickle_dumps_list, List.length_append]
    omega
termination_by sizeOf xs

/-- The binary fuel bound of an entry sequence. -/
theorem psizeObj_le_pickle (kvs : List (List Char × JValue)) :
    psizeObj kvs ≤ 4 * (pickle_dumps_obj kvs).length + 1 := by
  cases kvs with
  | nil => simp [psizeObj, pickle_dumps_obj]
  | cons kv kvs' =>
    obtain ⟨k, v⟩ := kv
    have h1 := psize_le_pickle v
    have h2 := psizeObj_le_pickle kvs'
    simp only [psizeObj, pickle_dumps_obj, List.length_cons, List.length_append]
    omega
termination_by sizeOf kvs

end

/-- `pickle.loads` (as modelled) inverts `pickle.dumps` on every value. -/
theorem pickle_loads_dumps (v : JValue) :
    pickle_loads (pickle_dumps_val v) = some v := by
  have hfuel : psize v ≤ 4 * (pickle_dumps_val v).length + 1 := by
    have := psize_le_pickle v
    omega
  have hp : parsePickle (4 * (pickle_dumps_val v).length + 1) (pickle_dumps_val v ++ [])
      = some (v, []) := parsePickle_dumps v _ [] hfuel
  rw [List.append_nil] at hp
  simp [pickle_loads, hp]

/-! ## C8 -/

/-- C8.  For every cacheable value of a supported shape and each configured
serialization format, `_deserialize(_serialize(v)) = v`.  The value is
required to be well-formed (`jwf`): no mapping carries duplicate keys —
Python dicts cannot, and on a duplicate-keyed rendering `json.loads` would
collapse the duplicates, which the embedded reader does not model.
Numbers are integers: float round-tripping is floating-point behaviour
outside this embedding.  The json format is modelled character-exactly on
CPython's `json.dumps` defaults; the pickle format is modelled from the
spec (its stdlib implementation is not part of this repository). -/
theorem c8_serialize_roundtrip (fmt : SerializationFormat) (v : JValue)
    (hwf : jwf v = true) :
    deserialize fmt (serialize fmt v) = some v := by
  cases fmt with
  | json =>
    show json_loads (json_dumps_val v) = some v
    exact json_loads_dumps v
  | pickle =>
    show pickle_loads (pickle_dumps_val v) = some v
    exact pickle_loads_dumps v

/-- Witness for C8: the concrete nested value `c8val` round-trips through
both formats. -/
theorem c8_serialize_roundtrip_witness :
    jwf c8val = true ∧
    deserialize .json (serialize .json c8val) = some c8val ∧
    deserialize .pickle (serialize .pickle c8val) = some c8val := by
  have hwf : jwf c8val = true := by
    simp [c8val, jwf, jwfList, jwfObj, keysNodup]
  exact ⟨hwf, c8_serialize_roundtrip .json c8val hwf,
    c8_serialize_roundtrip .pickle c8val hwf⟩

/-! ## C4 (corrected) -/

/-- Counterexample to C4 as stated: `cache4` (circuit open since time 0,
`circuit_reset_time = 30`, `failure_threshold = 5`) probed at time 31 with a
failing backend ping.  `is_available` does return `false`, but the circuit
does NOT remain open: `is_available` optimistically closed it (resetting
`failure_count` to 0) before pinging, and the single re-recorded failure
(count 1 < threshold 5) does not re-open it; `last_circuit_open_time` is
also left at 0, so no countdown restarts. -/
theorem c4_failed_ping_counterexample :
    (cache4.is_available 31 true false).1 = false ∧
    (cache4.is_available 31 true false).2.circuit_open = false ∧
    (cache4.is_available 31 true false).2.failure_count = 1 ∧
    (cache4.is_available 31 true false).2.last_circuit_open_time = 0 := by
  decide

/-- C4 as amended.  When the circuit is open, `circuit_reset_time` has
elapsed (strictly) and the client is connected, `is_available` first
optimistically closes the circuit and resets `failure_count` to 0, then
performs the real backend ping; if the ping fails it returns `false` and
re-records exactly one failure, but the circuit is re-opened (restarting the
countdown) only when `failure_threshold ≤ 1` — for any larger threshold the
circuit is left closed and `last_circuit_open_time` untouched. -/
theorem c4_amended_failed_ping_closes_circuit (c : Cache) (now : Int) (initOk : Bool)
    (hopen : c.circuit_open = true)
    (helapsed : c.circuit_reset_time < now - c.last_circuit_open_time)
    (hclient : c.clientPresent = true) :
    (c.is_available now initOk false).1 = false ∧
    (c.is_available now initOk false).2.failure_count = 1 ∧
    (c.is_available now initOk false).2.circuit_open = decide (c.failure_threshold ≤ 1) ∧
    (2 ≤ c.failure_threshold →
      (c.is_available now initOk false).2.circuit_open = false ∧
      (c.is_available now initOk false).2.last_circuit_open_time
        = c.last_circuit_open_time) := by
  have hav : c.is_available now initOk false
      = Cache.ping_path { c with circuit_open := false, failure_count := 0 } now initOk false := by
    simp [Cache.is_available, hopen, helapsed]
  have hpp : Cache.ping_path { c with circuit_open := false, failure_count := 0 } now initOk false
      = (false, Cache.handle_failure { c with circuit_open := false, failure_count := 0 } now) := by
    simp [Cache.ping_path, hclient]
  rw [hav, hpp]
  by_cases hth : c.failure_threshold ≤ 1
  · simp [Cache.handle_failure, hth]
    omega
  · have h2 : ¬ (c.failure_threshold ≤ 0 + 1) := by omega
    simp [Cache.handle_failure, h2, hth]

/-- Witness for C4-as-amended at the concrete `cache4`, probed at time 31
with a failing ping. -/
theorem c4_amended_failed_ping_closes_circuit_witness :
    (cache4.is_available 31 true false).1 = false ∧
    (cache4.is_available 31 true false).2.failure_count = 1 ∧
    (cache4.is_available 31 true false).2.circuit_open = decide (cache4.failure_threshold ≤ 1) ∧
    (2 ≤ cache4.failure_threshold →
      (cache4.is_available 31 true false).2.circuit_open = false ∧
      (cache4.is_available 31 true false).2.last_circuit_open_time
        = cache4.last_circuit_open_time) :=
  c4_amended_failed_ping_closes_circuit cache4 31 true (by decide) (by decide) (by decide)

/-! ## C5 -/

/-- C5.  Whenever the throttled availability check judges the shared store
unavailable, or a backend error occurs during the bucket read/write,
`check_rate_limit` returns `allowed = true` with `remaining` equal to the
full configured limit, regardless of the bucket's prior contents.  (That it
"never raises" is inherent in the embedding: `check_rate_limit` is a total
function — the source wraps the pipeline in `try/except` and the `except`
branch returns `True, limit`.) -/
theorem c5_fail_open (store : Store) (limit window now last_check cooldown : Int)
    (realAvail backendError : Bool)
    (h : (is_redis_available last_check cooldown now realAvail).1 = false
      ∨ backendError = true) :
    (check_rate_limit store limit window now
      (is_redis_available last_check cooldown now realAvail).1 backendError).1 = true ∧
    (check_rate_limit store limit window now
      (is_redis_available last_check cooldown now realAvail).1 backendError).2.1 = limit := by
  rcases h with hjudged | herr
  · rw [hjudged]
    simp [check_rate_limit]
  · rw [herr]
    by_cases hj : (is_redis_available last_check cooldown now realAvail).1 = true <;>
      simp_all [check_rate_limit]

/-- Witness for C5: a fully drained bucket, probe forced (cooldown 5 s
expired at t = 10) and reporting Redis down — the check still allows with
the full limit 20. -/
theorem c5_fail_open_witness :
    (check_rate_limit (some ⟨0, 0, 120⟩) 20 60 10
      (is_redis_available 0 5 10 false).1 false).1 = true ∧
    (check_rate_limit (some ⟨0, 0, 120⟩) 20 60 10
      (is_redis_available 0 5 10 false).1 false).2.1 = 20 :=
  c5_fail_open (some ⟨0, 0, 120⟩) 20 60 10 0 5 false false (Or.inl (by decide))

/-! ## C3 -/

/-- C3.  With the default anonymous limits (capacity 20, window 60 s),
starting from an empty bucket store at t = 0: the first 20 checks all allow
with `remaining` exactly 19, 18, ..., 0; the 21st check still at t = 0 is
denied; and the next check 3 s ( = window/capacity) later allows with
`remaining = 0`.  The Python float arithmetic is exact here:
`3 * (20/60)` is exactly 1 in IEEE double as it is in `ℚ`. -/
theorem c3_token_bucket_concrete_scenario :
    resolve_limits defaultCfg false false = (20, 60) ∧
    (runChecks none 20 60 (List.replicate 20 0)).1
      = (List.range 20).map (fun k => (true, 19 - (k : Int))) ∧
    (check_rate_limit (runChecks none 20 60 (List.replicate 20 0)).2
      20 60 0 true false).1 = false ∧
    (check_rate_limit
      (check_rate_limit (runChecks none 20 60 (List.replicate 20 0)).2
        20 60 0 true false).2.2
      20 60 3 true false).1 = true ∧
    (check_rate_limit
      (check_rate_limit (runChecks none 20 60 (List.replicate 20 0)).2
        20 60 0 true false).2.2
      20 60 3 true false).2.1 = 0 :=
  ⟨by with_unfolding_all rfl, by with_unfolding_all rfl, by with_unfolding_all rfl,
    by with_unfolding_all rfl, by with_unfolding_all rfl⟩

/-! ## C7 (code bug) -/

/-- C7 evaluated at the failing input.  With a drained bucket
(`tokens = 0`, `last_refill = 0`), capacity 20, window 60, a denied check at
t = 0 indeed writes nothing back beyond extending the key's expiry to
`2 * window` (first two conjuncts — this half of the claim holds).  But the
429 raised by `rate_limit_dependency` carries `Retry-After = 1`, because
`request.state.rate_limit_reset` is never assigned anywhere in the
repository so `reset_time` defaults to 0 and
`retry_after = max(1, 0 - now) = 1`; the time until at least one more token
accrues is 3 s (checks 1 s and 2 s later are still denied; 3 s later is
allowed), so the carried hint does not equal it. -/
theorem c7_retry_after_constant_one :
    (check_rate_limit (some ⟨0, 0, 60⟩) 20 60 0 true false).1 = false ∧
    (check_rate_limit (some ⟨0, 0, 60⟩) 20 60 0 true false).2.2 = some ⟨0, 0, 120⟩ ∧
    rate_limit_dependency defaultProtectedPaths "/api/v1/predict" none
        (some ⟨0, 0, 60⟩) 20 60 0 true false
      = .denied 1 (some ⟨0, 0, 120⟩) ∧
    (token_bucket_check (some ⟨0, 0, 120⟩) 20 60 1).1 = false ∧
    (token_bucket_check (some ⟨0, 0, 120⟩) 20 60 2).1 = false ∧
    (token_bucket_check (some ⟨0, 0, 120⟩) 20 60 3).1 = true ∧
    (1 : Int) ≠ 3 :=
  ⟨by with_unfolding_all rfl, by with_unfolding_all rfl, by with_unfolding_all rfl,
    by with_unfolding_all rfl, by with_unfolding_all rfl, by with_unfolding_all rfl,
    by decide⟩

/-! ## C1 (code bug) -/

/-- C1 evaluated at the failing input.  The read-refill-decrement sequence
of `check_rate_limit` is NOT atomic: the source reads in one pipeline,
computes locally, and writes in a separate transaction.  For a bucket
holding exactly 1 token (capacity 20, window 60, both requests at t = 0),
the interleaving in which both requests execute their read pipeline before
either write transaction admits BOTH requests — two allows on one token —
whereas the fully sequential (atomic) execution of the same two requests
admits the first and denies the second.  Hence N+1 concurrent checks against
a bucket with N tokens can produce N+1 allows, contradicting the claimed
atomicity. -/
theorem c1_rate_limit_check_not_atomic :
    (runSchedule (some ⟨1, 0, 120⟩) 20 60 0
        [.read1, .read2, .write1, .write2]).result1 = some (true, 0) ∧
    (runSchedule (some ⟨1, 0, 120⟩) 20 60 0
        [.read1, .read2, .write1, .write2]).result2 = some (true, 0) ∧
    (runSchedule (some ⟨1, 0, 120⟩) 20 60 0
        [.read1, .write1, .read2, .write2]).result1 = some (true, 0) ∧
    (runSchedule (some ⟨1, 0, 120⟩) 20 60 0
        [.read1, .write1, .read2, .write2]).result2 = some (false, 0) :=
  ⟨by with_unfolding_all rfl, by with_unfolding_all rfl,
    by with_unfolding_all rfl, by with_unfolding_all rfl⟩

end MLOpsPlatform
